import Mathlib

/-!
Shallow embedding of the openrank ecosystem graph builder
(`openevosim/graph_builder.py`): the contributor index loader, the
bipartite graph builder and the developer-network projector.
-/

/-- JSON-like values, as produced by `json.load` in the source. -/
inductive Json where
  | null : Json
  | jbool : Bool → Json
  | num : Int → Json
  | str : String → Json
  | arr : List Json → Json
  | obj : List (String × Json) → Json

mutual

/-- Decidable equality on `Json` values. -/
def Json.decEq : (a b : Json) → Decidable (a = b)
  | .null, .null => isTrue rfl
  | .jbool a, .jbool b =>
      match instDecidableEqBool a b with
      | isTrue h => isTrue (by rw [h])
      | isFalse h => isFalse (fun hh => h (Json.jbool.inj hh))
  | .num a, .num b =>
      match Int.decEq a b with
      | isTrue h => isTrue (by rw [h])
      | isFalse h => isFalse (fun hh => h (Json.num.inj hh))
  | .str a, .str b =>
      match String.decEq a b with
      | isTrue h => isTrue (by rw [h])
      | isFalse h => isFalse (fun hh => h (Json.str.inj hh))
  | .arr xs, .arr ys =>
      match Json.decEqArr xs ys with
      | isTrue h => isTrue (by rw [h])
      | isFalse h => isFalse (fun hh => h (Json.arr.inj hh))
  | .obj xs, .obj ys =>
      match Json.decEqObj xs ys with
      | isTrue h => isTrue (by rw [h])
      | isFalse h => isFalse (fun hh => h (Json.obj.inj hh))
  | .null, .jbool _ | .null, .num _ | .null, .str _ | .null, .arr _
  | .null, .obj _ | .jbool _, .null | .jbool _, .num _ | .jbool _, .str _
  | .jbool _, .arr _ | .jbool _, .obj _ | .num _, .null | .num _, .jbool _
  | .num _, .str _ | .num _, .arr _ | .num _, .obj _ | .str _, .null
  | .str _, .jbool _ | .str _, .num _ | .str _, .arr _ | .str _, .obj _
  | .arr _, .null | .arr _, .jbool _ | .arr _, .num _ | .arr _, .str _
  | .arr _, .obj _ | .obj _, .null | .obj _, .jbool _ | .obj _, .num _
  | .obj _, .str _ | .obj _, .arr _ => isFalse (fun hh => Json.noConfusion hh)

/-- Decidable equality on `Json` array payloads. -/
def Json.decEqArr : (xs ys : List Json) → Decidable (xs = ys)
  | [], [] => isTrue rfl
  | x :: xs, y :: ys =>
      match Json.decEq x y, Json.decEqArr xs ys with
      | isTrue h1, isTrue h2 => isTrue (by rw [h1, h2])
      | isFalse h1, _ => isFalse (fun hh => h1 (List.cons.inj hh).1)
      | isTrue _, isFalse h2 => isFalse (fun hh => h2 (List.cons.inj hh).2)
  | [], _ :: _ => isFalse (fun hh => List.noConfusion hh)
  | _ :: _, [] => isFalse (fun hh => List.noConfusion hh)

/-- Decidable equality on `Json` object payloads. -/
def Json.decEqObj : (xs ys : List (String × Json)) → Decidable (xs = ys)
  | [], [] => isTrue rfl
  | (k, v) :: xs, (l, w) :: ys =>
      match String.decEq k l, Json.decEq v w, Json.decEqObj xs ys with
      | isTrue h1, isTrue h2, isTrue h3 => isTrue (by rw [h1, h2, h3])
      | isFalse h1, _, _ =>
          isFalse (fun hh => h1 (congrArg Prod.fst (List.cons.inj hh).1))
      | isTrue _, isFalse h2, _ =>
          isFalse (fun hh => h2 (congrArg Prod.snd (List.cons.inj hh).1))
      | isTrue _, isTrue _, isFalse h3 => isFalse (fun hh => h3 (List.cons.inj hh).2)
  | [], _ :: _ => isFalse (fun hh => List.noConfusion hh)
  | _ :: _, [] => isFalse (fun hh => List.noConfusion hh)

end

instance : DecidableEq Json := Json.decEq

/-- Insertion into a Python set, modelled as an append-if-missing list
(iteration order = first-insertion order). -/
def pinsert {α : Type} [DecidableEq α] (l : List α) (x : α) : List α :=
  if x ∈ l then l else l ++ [x]

/-- Undirected graph with a string `type` attribute per node, mirroring
the subset of the easygraph/networkx `Graph` API the source uses. -/
@[ext]
structure EGraph (α : Type) where
  nodes : List (α × String)
  edges : List (α × α)
deriving DecidableEq

variable {α : Type} [DecidableEq α]

def EGraph.hasNode (g : EGraph α) (x : α) : Bool :=
  g.nodes.any (fun p => decide (p.1 = x))

/-- Overwrite the `type` attribute of the entry for `x` (pointwise). -/
def wnode (x : α) (t : String) (p : α × String) : α × String :=
  if p.1 = x then (x, t) else p

/-- `add_node(x, type=t)`: inserts the node, or updates its `type`
attribute in place when it already exists. -/
def EGraph.addNode (g : EGraph α) (x : α) (t : String) : EGraph α :=
  if g.hasNode x then { g with nodes := g.nodes.map (wnode x t) }
  else { g with nodes := g.nodes ++ [(x, t)] }

def EGraph.hasEdge (g : EGraph α) (u v : α) : Bool :=
  g.edges.any (fun e => decide ((e.1 = u ∧ e.2 = v) ∨ (e.1 = v ∧ e.2 = u)))

/-- `add_edge(u, v)` on the bipartite graph (unweighted): a no-op when
the edge is already present. Both endpoints have just been added by
`add_node` wherever the source calls this. -/
def EGraph.addEdgeNW (g : EGraph α) (u v : α) : EGraph α :=
  if g.hasEdge u v then g else { g with edges := g.edges ++ [(u, v)] }

/-- The `type` attribute of a node (`none` when the node is absent). -/
def EGraph.nodeType (g : EGraph α) (x : α) : Option String :=
  (g.nodes.find? (fun p => decide (p.1 = x))).map (fun p => p.2)

/-- `list(graph.neighbors(r))`: the adjacency of `r` in edge insertion
order. -/
def EGraph.neighbors (g : EGraph α) (r : α) : List α :=
  g.edges.filterMap (fun e =>
    if e.1 = r then some e.2 else if e.2 = r then some e.1 else none)

/-- Weighted undirected graph used for the developer projection. -/
structure WGraph (α : Type) where
  nodes : List α
  edges : List (α × α × Nat)
deriving DecidableEq

/-- `dev_graph.add_node(dev)` (all projection nodes share one type). -/
def WGraph.addNode (g : WGraph α) (x : α) : WGraph α :=
  { g with nodes := pinsert g.nodes x }

/-- Does the stored edge `e` join `u` and `v` (in either orientation)? -/
def wmatch (e : α × α × Nat) (u v : α) : Bool :=
  decide ((e.1 = u ∧ e.2.1 = v) ∨ (e.1 = v ∧ e.2.1 = u))

def WGraph.hasWEdge (g : WGraph α) (u v : α) : Bool :=
  g.edges.any (fun e => wmatch e u v)

/-- Total weight stored for the pair `{u, v}` in an edge list. -/
def wsum (l : List (α × α × Nat)) (u v : α) : Nat :=
  ((l.filter (fun e => wmatch e u v)).map (fun e => e.2.2)).sum

/-- Total stored weight between `u` and `v` (0 when there is no edge). -/
def WGraph.wt (g : WGraph α) (u v : α) : Nat :=
  wsum g.edges u v

/-- Bump the weight of the first stored edge joining `u` and `v`. -/
def bumpFirst : List (α × α × Nat) → α → α → List (α × α × Nat)
  | [], _, _ => []
  | e :: es, u, v =>
      if wmatch e u v then (e.1, e.2.1, e.2.2 + 1) :: es else e :: bumpFirst es u v

/-- `dev_graph[u][v]['weight'] += 1` when the edge exists, otherwise
`dev_graph.add_edge(u, v, weight=1)` (which inserts missing endpoints). -/
def WGraph.incEdge (g : WGraph α) (u v : α) : WGraph α :=
  if g.hasWEdge u v then { g with edges := bumpFirst g.edges u v }
  else { nodes := ((g.addNode u).addNode v).nodes, edges := g.edges ++ [(u, v, 1)] }

/-- State of an `EcosystemGraphBuilder`: the bipartite graph plus the
tracked developer-id and repo-id sets (insertion-ordered). -/
@[ext]
structure BuilderState (α : Type) where
  graph : EGraph α
  developers : List α
  repos : List α
deriving DecidableEq

def initState : BuilderState α := ⟨⟨[], []⟩, [], []⟩

/-- One iteration of the `for user in contributors` loop (lines 88–93):
`add_node(user, type="developer")`, `developers.add(user)`,
`add_edge(user, repo_name)`. -/
def addDev (r : α) (s : BuilderState α) (u : α) : BuilderState α :=
  { graph := (s.graph.addNode u "developer").addEdgeNW u r,
    developers := pinsert s.developers u,
    repos := s.repos }

/-- Lines 84–93 of `graph_builder.py`: add the repository node, track it,
then add every contributor node and its membership edge. -/
def addRecord (s : BuilderState α) (r : α) (devs : List α) : BuilderState α :=
  devs.foldl (addDev r)
    { graph := s.graph.addNode r "repo",
      developers := s.developers,
      repos := pinsert s.repos r }

/-- All ordered pairs `(l[i], l[j])` with `i < j`. -/
def pairsUpper {β : Type} : List β → List (β × β)
  | [] => []
  | x :: xs => xs.map (fun y => (x, y)) ++ pairsUpper xs

/-- The `for i ... for j in range(i+1, ...)` clique loop for one repo. -/
def cliqueFold (dg : WGraph α) (nbrs : List α) : WGraph α :=
  (pairsUpper nbrs).foldl (fun g p => g.incEdge p.1 p.2) dg

/-- `get_developer_network` (lines 101–128): seed the output with every
tracked developer, then clique-expand each tracked repository that is
present in the graph. -/
def get_developer_network (s : BuilderState α) : WGraph α :=
  let dg0 : WGraph α := s.developers.foldl WGraph.addNode ⟨[], []⟩
  s.repos.foldl (fun dg r =>
    if s.graph.hasNode r then cliqueFold dg (s.graph.neighbors r) else dg) dg0

/-- Number of tracked repositories present in the graph that have both
`u` and `v` in their neighbor set. -/
def coCount (s : BuilderState α) (u v : α) : Nat :=
  s.repos.countP (fun r =>
    s.graph.hasNode r && decide (u ∈ s.graph.neighbors r) &&
      decide (v ∈ s.graph.neighbors r))

/-- Builder states produced by a sequence of successfully processed
membership records, starting from a fresh builder. -/
inductive Reachable {α : Type} [DecidableEq α] : BuilderState α → Prop where
  | init : Reachable initState
  | step : ∀ (s : BuilderState α) (r : α) (devs : List α),
      Reachable s → Reachable (addRecord s r devs)

/-- Effective index of Python `xs[i]`: negative indices count from the
end of the list. -/
def pyIdx (len : Nat) (i : Int) : Int :=
  if i < 0 then (len : Int) + i else i

/-- Python `xs[i]` on the path-segment list: out-of-range raises
`IndexError` (modelled as `.error`). -/
def pyGet (xs : List String) (i : Int) : Except Unit String :=
  if 0 ≤ pyIdx xs.length i ∧ pyIdx xs.length i < (xs.length : Int) then
    .ok (xs.getD (pyIdx xs.length i).toNat "")
  else .error ()

/-- Lines 47–65: infer `owner/repo` from the directory path segments.
`.error` models an `IndexError` escaping the heuristic (it is caught by
the surrounding `try`). -/
def joinSeg (a b : Except Unit String) : Except Unit String :=
  match a with
  | .error e => .error e
  | .ok a2 =>
    match b with
    | .error e => .error e
    | .ok b2 => .ok (a2 ++ "/" ++ b2)

def inferRepoName (parts : List String) : Except Unit String :=
  if "github" ∈ parts then
    (if parts.indexOf "github" + 2 < parts.length then
      joinSeg (pyGet parts ((parts.indexOf "github" : Int) + 1))
        (pyGet parts ((parts.indexOf "github" : Int) + 2))
    else .ok "unknown/unknown")
  else if "gitee" ∈ parts then
    (if parts.indexOf "gitee" + 2 < parts.length then
      joinSeg (pyGet parts ((parts.indexOf "gitee" : Int) + 1))
        (pyGet parts ((parts.indexOf "gitee" : Int) + 2))
    else .ok "unknown/unknown")
  else if "developers" ∈ parts then
    joinSeg (pyGet parts ((parts.indexOf "developers" : Int) - 2))
      (pyGet parts ((parts.indexOf "developers" : Int) - 1))
  else
    joinSeg (pyGet parts (-2)) (pyGet parts (-1))

/-- Modelled from the spec (claim C2's reading of §4.1): the same rules,
but a `github`/`gitee` segment with fewer than two following segments
falls through to the later rules instead of producing the sentinel. -/
def specInferRepoName (parts : List String) : Except Unit String :=
  if "github" ∈ parts ∧ parts.indexOf "github" + 2 < parts.length then
    joinSeg (pyGet parts ((parts.indexOf "github" : Int) + 1))
      (pyGet parts ((parts.indexOf "github" : Int) + 2))
  else if "gitee" ∈ parts ∧ parts.indexOf "gitee" + 2 < parts.length then
    joinSeg (pyGet parts ((parts.indexOf "gitee" : Int) + 1))
      (pyGet parts ((parts.indexOf "gitee" : Int) + 2))
  else if "developers" ∈ parts then
    joinSeg (pyGet parts ((parts.indexOf "developers" : Int) - 2))
      (pyGet parts ((parts.indexOf "developers" : Int) - 1))
  else
    joinSeg (pyGet parts (-2)) (pyGet parts (-1))

/-- The situations in which `inferRepoName` yields the sentinel: a
`github` (else `gitee`) segment without two segments after it. -/
def sentinelCond (parts : List String) : Prop :=
  ("github" ∈ parts ∧ ¬ parts.indexOf "github" + 2 < parts.length) ∨
    ("github" ∉ parts ∧ "gitee" ∈ parts ∧
      ¬ parts.indexOf "gitee" + 2 < parts.length)

/-- Python iteration over a JSON value: lists yield their items, strings
their characters, objects their keys; other values raise `TypeError`. -/
def pyIter : Json → Except Unit (List Json)
  | .arr xs => .ok xs
  | .str s => .ok (s.toList.map (fun c => Json.str (String.mk [c])))
  | .obj kvs => .ok (kvs.map (fun kv => Json.str kv.1))
  | _ => .error ()

/-- `user = item[0] if isinstance(item, list) else item`; an empty list
raises `IndexError`. -/
def extractItem : Json → Except Unit Json
  | .arr [] => .error ()
  | .arr (x :: _) => .ok x
  | j => .ok j

/-- Python hashability of a JSON value (lists and dicts are not). -/
def pyHashable : Json → Bool
  | .arr _ => false
  | .obj _ => false
  | _ => true

/-- `contributors.add(user)`: raises `TypeError` on unhashable values. -/
def setAdd (acc : List Json) (u : Json) : Except Unit (List Json) :=
  if pyHashable u then .ok (pinsert acc u) else .error ()

/-- One step of the `for item in user_list` loop of lines 77–82. -/
def entryStep (a : List Json) (item : Json) : Except Unit (List Json) :=
  match extractItem item with
  | .error e => .error e
  | .ok u => setAdd a u

/-- The inner `for item in user_list` loop of lines 77–82. -/
def addPeriod (acc : List Json) (v : Json) : Except Unit (List Json) :=
  match pyIter v with
  | .error e => .error e
  | .ok items => items.foldlM entryStep acc

/-- Lines 74–82: union the contributor ids over all time periods. -/
def collectContribs (kvs : List (String × Json)) : Except Unit (List Json) :=
  kvs.foldlM (fun acc kv => addPeriod acc kv.2) []

/-- Everything `_process_contributors_file` does before mutating the
graph: path inference, file reading/decoding (`none` = missing file or
JSON decode error) and contributor collection. -/
def parseRecord (parts : List String) (content : Option Json) :
    Except Unit (String × List Json) :=
  match inferRepoName parts with
  | .error e => .error e
  | .ok r =>
    match content with
    | none => .error ()
    | some data =>
      match data with
      | Json.obj kvs =>
        (match collectContribs kvs with
         | .error e => .error e
         | .ok cs => .ok (r, cs))
      | _ => .error ()

/-- `_process_contributors_file` (lines 38–96): any failure is caught and
the builder state is returned untouched; otherwise the record is added. -/
def process_contributors_file (s : BuilderState Json) (parts : List String)
    (content : Option Json) : BuilderState Json :=
  match parseRecord parts content with
  | .error _ => s
  | .ok (r, cs) => addRecord s (Json.str r) cs

/-- `load_data`: fold over the recognized files found by the walk (each
entry: the directory's path segments and the decoded file content). -/
def load_data (s : BuilderState Json)
    (files : List (List String × Option Json)) : BuilderState Json :=
  files.foldl (fun st f => process_contributors_file st f.1 f.2) s

/-- A contributor entry of the documented shape: a bare id string or a
two-element `[id, score]` pair. -/
def wfEntryB : Json → Bool
  | .str _ => true
  | .arr [Json.str _, Json.num _] => true
  | _ => false

/-- The contributor id an entry denotes (first element of a pair,
otherwise the entry itself). -/
def entryId : Json → Json
  | .arr (x :: _) => x
  | j => j

/-- Well-formed file content: a mapping whose values are sequences of
well-formed contributor entries. -/
def wfContentB : Json → Bool
  | .obj kvs => kvs.all (fun kv =>
      match kv.2 with
      | .arr xs => xs.all wfEntryB
      | _ => false)
  | _ => false

/-- Structural invariants maintained by the builder: duplicate-free
tracked sets, a duplicate-free edge list with no reversed duplicates,
tracked ids present as nodes, every edge running from a tracked developer
to a tracked repo, node types determined by the tracked sets, and
duplicate-free node keys. -/
def InvS (s : BuilderState α) : Prop :=
  s.repos.Nodup ∧
  s.developers.Nodup ∧
  s.graph.edges.Nodup ∧
  (∀ a b, (a, b) ∈ s.graph.edges → a ≠ b → (b, a) ∉ s.graph.edges) ∧
  (∀ r ∈ s.repos, s.graph.hasNode r = true) ∧
  (∀ e ∈ s.graph.edges, e.1 ∈ s.developers ∧ e.2 ∈ s.repos) ∧
  (∀ x ∈ s.developers, s.graph.hasNode x = true) ∧
  (∀ p ∈ s.graph.nodes, (p.1 ∈ s.developers ∧ p.2 = "developer") ∨
    (p.1 ∈ s.repos ∧ p.2 = "repo")) ∧
  (s.graph.nodes.map Prod.fst).Nodup

/-- The worked example of §8: `R1 ↦ {a,b,c}`, `R2 ↦ {b,c,d}`. -/
def sexample : BuilderState String :=
  addRecord (addRecord initState "R1" ["a", "b", "c"]) "R2" ["b", "c", "d"]

/-- Two loader files whose contributor `"a/b"` collides with the repo id
inferred for the first file. -/
def overlapFiles : List (List String × Option Json) :=
  [(["github", "a", "b"], some (Json.obj [("2015", Json.arr [Json.str "x"])])),
   (["github", "c", "d"], some (Json.obj [("2015", Json.arr [Json.str "a/b"])]))]

def overlapState : BuilderState Json := load_data initState overlapFiles

/-- A loader file whose contributor id equals the inferred repo id. -/
def loopFiles : List (List String × Option Json) :=
  [(["github", "r", "s"], some (Json.obj [("2015", Json.arr [Json.str "r/s"])]))]

def loopState : BuilderState Json := load_data initState loopFiles

theorem mem_pinsert {l : List α} {x y : α} : y ∈ pinsert l x ↔ y ∈ l ∨ y = x := by
  unfold pinsert
  split
  · rename_i h
    exact ⟨Or.inl, fun hy => hy.elim id (fun e => e ▸ h)⟩
  · simp

theorem pinsert_self (l : List α) (x : α) : x ∈ pinsert l x :=
  mem_pinsert.mpr (Or.inr rfl)

theorem pinsert_of_mem {l : List α} {x : α} (h : x ∈ l) : pinsert l x = l := by
  simp [pinsert, h]

theorem mem_pinsert_of_mem {l : List α} {x y : α} (h : y ∈ l) : y ∈ pinsert l x :=
  mem_pinsert.mpr (Or.inl h)

theorem pinsert_nodup {l : List α} {x : α} (h : l.Nodup) : (pinsert l x).Nodup := by
  unfold pinsert
  split
  · exact h
  · rename_i hx
    simp [List.nodup_append, h, hx]

theorem wnode_fst (x : α) (t : String) (p : α × String) : (wnode x t p).1 = p.1 := by
  unfold wnode
  split <;> simp_all

theorem hasNode_iff_keys {g : EGraph α} {x : α} :
    g.hasNode x = true ↔ x ∈ g.nodes.map Prod.fst := by
  unfold EGraph.hasNode
  simp only [List.any_eq_true, decide_eq_true_eq, List.mem_map]

theorem hasNode_iff {g : EGraph α} {x : α} :
    g.hasNode x = true ↔ ∃ t, (x, t) ∈ g.nodes := by
  unfold EGraph.hasNode
  simp only [List.any_eq_true, decide_eq_true_eq]
  constructor
  · rintro ⟨p, hp, he⟩
    refine ⟨p.2, ?_⟩
    have hpx : p = (x, p.2) := by
      cases p
      simp_all
    rwa [hpx] at hp
  · rintro ⟨t, ht⟩
    exact ⟨(x, t), ht, rfl⟩

theorem addNode_edges (g : EGraph α) (x : α) (t : String) :
    (g.addNode x t).edges = g.edges := by
  unfold EGraph.addNode
  split <;> rfl

theorem addNode_nodes_of_present {g : EGraph α} {x : α} (t : String)
    (h : g.hasNode x = true) : (g.addNode x t).nodes = g.nodes.map (wnode x t) := by
  simp [EGraph.addNode, h]

theorem mem_nodes_addNode_of_ne {g : EGraph α} {x : α} {t : String} {p : α × String}
    (hp : p ∈ (g.addNode x t).nodes) (hne : p.1 ≠ x) : p ∈ g.nodes := by
  unfold EGraph.addNode at hp
  split at hp
  · simp only [List.mem_map] at hp
    obtain ⟨q, hq, he⟩ := hp
    unfold wnode at he
    split at he
    · rw [← he] at hne
      simp at hne
    · rwa [← he]
  · simp only [List.mem_append, List.mem_singleton] at hp
    rcases hp with hp | hp
    · exact hp
    · rw [hp] at hne
      simp at hne

theorem mem_nodes_addNode_key {g : EGraph α} {x : α} {t : String} {p : α × String}
    (hp : p ∈ (g.addNode x t).nodes) (hx : p.1 = x) : p = (x, t) := by
  unfold EGraph.addNode at hp
  split at hp
  · simp only [List.mem_map] at hp
    obtain ⟨q, hq, he⟩ := hp
    unfold wnode at he
    split at he
    · exact he.symm
    · rename_i hq1
      rw [← he] at hx
      exact absurd hx hq1
  · rename_i hnot
    simp only [List.mem_append, List.mem_singleton] at hp
    rcases hp with hp | hp
    · exfalso
      have : g.hasNode x = true := hasNode_iff.mpr ⟨p.2, by
        have hpx : p = (x, p.2) := by
          cases p
          simp_all
        rwa [hpx] at hp⟩
      simp_all
    · exact hp

theorem hasNode_addNode {g : EGraph α} {x y : α} {t : String} :
    (g.addNode x t).hasNode y = true ↔ g.hasNode y = true ∨ y = x := by
  unfold EGraph.addNode
  split
  · rename_i h
    simp only [hasNode_iff_keys, List.map_map]
    have hk : g.nodes.map (Prod.fst ∘ wnode x t) = g.nodes.map Prod.fst := by
      apply List.map_congr_left
      intro p _
      exact wnode_fst x t p
    rw [hk]
    constructor
    · exact Or.inl
    · rintro (hy | rfl)
      · exact hy
      · rwa [hasNode_iff_keys] at h
  · simp only [hasNode_iff_keys, List.map_append, List.map_cons, List.map_nil,
      List.mem_append, List.mem_singleton]

theorem hasNode_addNode_self (g : EGraph α) (x : α) (t : String) :
    (g.addNode x t).hasNode x = true :=
  hasNode_addNode.mpr (Or.inr rfl)

theorem hasNode_addNode_mono {g : EGraph α} {y : α} (x : α) (t : String)
    (h : g.hasNode y = true) : (g.addNode x t).hasNode y = true :=
  hasNode_addNode.mpr (Or.inl h)

theorem hasEdge_iff {g : EGraph α} {u v : α} :
    g.hasEdge u v = true ↔ (u, v) ∈ g.edges ∨ (v, u) ∈ g.edges := by
  unfold EGraph.hasEdge
  simp only [List.any_eq_true, decide_eq_true_eq]
  constructor
  · rintro ⟨e, he, h | h⟩
    · left
      have hev : e = (u, v) := by
        cases e
        simp_all
      rwa [hev] at he
    · right
      have hev : e = (v, u) := by
        cases e
        simp_all
      rwa [hev] at he
  · rintro (h | h)
    · exact ⟨(u, v), h, Or.inl ⟨rfl, rfl⟩⟩
    · exact ⟨(v, u), h, Or.inr ⟨rfl, rfl⟩⟩

theorem hasEdge_comm (g : EGraph α) (u v : α) : g.hasEdge u v = g.hasEdge v u := by
  unfold EGraph.hasEdge
  congr 1
  funext e
  rw [decide_eq_decide]
  tauto

theorem mem_neighbors {g : EGraph α} {r y : α} :
    y ∈ g.neighbors r ↔ (r, y) ∈ g.edges ∨ (y, r) ∈ g.edges := by
  unfold EGraph.neighbors
  simp only [List.mem_filterMap]
  constructor
  · rintro ⟨⟨a, b⟩, he, hf⟩
    split at hf
    · rename_i h1
      obtain rfl : b = y := Option.some.inj hf
      left
      have har : a = r := h1
      rwa [har] at he
    · split at hf
      · rename_i h1 h2
        obtain rfl : a = y := Option.some.inj hf
        right
        have hbr : b = r := h2
        rwa [hbr] at he
      · exact absurd hf (by simp)
  · rintro (h | h)
    · exact ⟨(r, y), h, by simp⟩
    · refine ⟨(y, r), h, ?_⟩
      by_cases hyr : y = r
      · subst hyr
        simp
      · simp [hyr]

theorem mem_neighbors_iff_hasEdge {g : EGraph α} {r y : α} :
    y ∈ g.neighbors r ↔ g.hasEdge y r = true := by
  rw [mem_neighbors, hasEdge_iff]
  tauto

theorem addEdgeNW_nodes (g : EGraph α) (u v : α) :
    (g.addEdgeNW u v).nodes = g.nodes := by
  unfold EGraph.addEdgeNW
  split <;> rfl

theorem hasNode_addEdgeNW (g : EGraph α) (u v y : α) :
    (g.addEdgeNW u v).hasNode y = g.hasNode y := by
  unfold EGraph.hasNode
  rw [addEdgeNW_nodes]

theorem hasEdge_addNode (g : EGraph α) (x : α) (t : String) (a b : α) :
    (g.addNode x t).hasEdge a b = g.hasEdge a b := by
  unfold EGraph.hasEdge
  rw [addNode_edges]

theorem neighbors_addNode (g : EGraph α) (x : α) (t : String) (r : α) :
    (g.addNode x t).neighbors r = g.neighbors r := by
  unfold EGraph.neighbors
  rw [addNode_edges]

theorem mem_edges_addEdgeNW {g : EGraph α} {u v : α} {e : α × α} :
    e ∈ (g.addEdgeNW u v).edges ↔
      e ∈ g.edges ∨ (g.hasEdge u v = false ∧ e = (u, v)) := by
  unfold EGraph.addEdgeNW
  split
  · rename_i h
    simp [h]
  · rename_i h
    simp only [Bool.not_eq_true] at h
    simp [h]

theorem hasEdge_addEdgeNW_self (g : EGraph α) (u v : α) :
    (g.addEdgeNW u v).hasEdge u v = true := by
  unfold EGraph.addEdgeNW
  split
  · assumption
  · rw [hasEdge_iff]
    left
    simp

theorem hasEdge_addEdgeNW_mono {g : EGraph α} {a b : α} (u v : α)
    (h : g.hasEdge a b = true) : (g.addEdgeNW u v).hasEdge a b = true := by
  rw [hasEdge_iff] at h ⊢
  rcases h with h | h
  · exact Or.inl (mem_edges_addEdgeNW.mpr (Or.inl h))
  · exact Or.inr (mem_edges_addEdgeNW.mpr (Or.inl h))

theorem foldl_addDev_repos (r : α) (devs : List α) (t : BuilderState α) :
    (devs.foldl (addDev r) t).repos = t.repos := by
  induction devs generalizing t with
  | nil => rfl
  | cons d ds ih =>
    rw [List.foldl_cons, ih]
    rfl

theorem addRecord_repos (s : BuilderState α) (r : α) (devs : List α) :
    (addRecord s r devs).repos = pinsert s.repos r := by
  unfold addRecord
  rw [foldl_addDev_repos]

theorem foldl_addDev_developers (r : α) (devs : List α) (t : BuilderState α) :
    (devs.foldl (addDev r) t).developers = devs.foldl pinsert t.developers := by
  induction devs generalizing t with
  | nil => rfl
  | cons d ds ih =>
    rw [List.foldl_cons, ih]
    rfl

theorem addRecord_developers (s : BuilderState α) (r : α) (devs : List α) :
    (addRecord s r devs).developers = devs.foldl pinsert s.developers := by
  unfold addRecord
  rw [foldl_addDev_developers]

theorem mem_foldl_pinsert {devs l : List α} {x : α} :
    x ∈ devs.foldl pinsert l ↔ x ∈ l ∨ x ∈ devs := by
  induction devs generalizing l with
  | nil => simp
  | cons d ds ih =>
    rw [List.foldl_cons, ih, mem_pinsert]
    simp
    tauto

theorem mem_edges_foldl_addDev {r : α} {devs : List α} {t : BuilderState α} {e : α × α}
    (he : e ∈ (devs.foldl (addDev r) t).graph.edges) :
    e ∈ t.graph.edges ∨ ∃ u ∈ devs, e = (u, r) := by
  induction devs generalizing t with
  | nil => exact Or.inl he
  | cons d ds ih =>
    rw [List.foldl_cons] at he
    rcases ih he with h | ⟨u, hu, he2⟩
    · have h2 := mem_edges_addEdgeNW.mp h
      rw [addNode_edges] at h2
      rcases h2 with h2 | ⟨_, rfl⟩
      · exact Or.inl h2
      · exact Or.inr ⟨d, List.mem_cons_self d ds, rfl⟩
    · exact Or.inr ⟨u, List.mem_cons_of_mem d hu, he2⟩

theorem hasEdge_foldl_addDev_mono {r : α} {devs : List α} {t : BuilderState α} {a b : α}
    (h : t.graph.hasEdge a b = true) :
    (devs.foldl (addDev r) t).graph.hasEdge a b = true := by
  induction devs generalizing t with
  | nil => exact h
  | cons d ds ih =>
    rw [List.foldl_cons]
    apply ih
    show ((t.graph.addNode d "developer").addEdgeNW d r).hasEdge a b = true
    apply hasEdge_addEdgeNW_mono
    rwa [hasEdge_addNode]

theorem hasEdge_foldl_addDev_self {r : α} {devs : List α} {t : BuilderState α} {u : α}
    (hu : u ∈ devs) : (devs.foldl (addDev r) t).graph.hasEdge u r = true := by
  induction devs generalizing t with
  | nil => cases hu
  | cons d ds ih =>
    rw [List.foldl_cons]
    rcases List.mem_cons.mp hu with rfl | hu2
    · apply hasEdge_foldl_addDev_mono
      exact hasEdge_addEdgeNW_self _ _ _
    · exact ih hu2

theorem addRecord_hasEdge_iff {s : BuilderState α} {r : α} {devs : List α} {x : α} :
    (addRecord s r devs).graph.hasEdge x r = true ↔
      s.graph.hasEdge x r = true ∨ x ∈ devs := by
  constructor
  · intro h
    rw [hasEdge_iff] at h
    rcases h with h | h
    · rcases mem_edges_foldl_addDev h with h2 | ⟨u, hu, he⟩
      · rw [addNode_edges] at h2
        exact Or.inl (hasEdge_iff.mpr (Or.inl h2))
      · obtain ⟨rfl, -⟩ := Prod.mk.inj he
        exact Or.inr hu
    · rcases mem_edges_foldl_addDev h with h2 | ⟨u, hu, he⟩
      · rw [addNode_edges] at h2
        exact Or.inl (hasEdge_iff.mpr (Or.inr h2))
      · obtain ⟨rfl, rfl⟩ := Prod.mk.inj he
        exact Or.inr hu
  · rintro (h | h)
    · unfold addRecord
      apply hasEdge_foldl_addDev_mono
      show ((s.graph.addNode r "repo")).hasEdge x r = true
      rwa [hasEdge_addNode]
    · exact hasEdge_foldl_addDev_self h

theorem mem_neighbors_addRecord {s : BuilderState α} {r : α} {devs : List α} {x : α} :
    x ∈ (addRecord s r devs).graph.neighbors r ↔
      x ∈ s.graph.neighbors r ∨ x ∈ devs := by
  rw [mem_neighbors_iff_hasEdge, mem_neighbors_iff_hasEdge, addRecord_hasEdge_iff]

theorem foldl_addDev_hasNode_mono {r : α} {devs : List α} {t : BuilderState α} {y : α}
    (h : t.graph.hasNode y = true) :
    (devs.foldl (addDev r) t).graph.hasNode y = true := by
  induction devs generalizing t with
  | nil => exact h
  | cons d ds ih =>
    rw [List.foldl_cons]
    apply ih
    show ((t.graph.addNode d "developer").addEdgeNW d r).hasNode y = true
    rw [hasNode_addEdgeNW]
    exact hasNode_addNode_mono _ _ h

theorem foldl_addDev_hasNode_dev {r : α} {devs : List α} {t : BuilderState α} {u : α}
    (hu : u ∈ devs) : (devs.foldl (addDev r) t).graph.hasNode u = true := by
  induction devs generalizing t with
  | nil => cases hu
  | cons d ds ih =>
    rw [List.foldl_cons]
    rcases List.mem_cons.mp hu with rfl | hu2
    · apply foldl_addDev_hasNode_mono
      show ((t.graph.addNode u "developer").addEdgeNW u r).hasNode u = true
      rw [hasNode_addEdgeNW]
      exact hasNode_addNode_self _ _ _
    · exact ih hu2

theorem addRecord_hasNode_repo (s : BuilderState α) (r : α) (devs : List α) :
    (addRecord s r devs).graph.hasNode r = true := by
  unfold addRecord
  apply foldl_addDev_hasNode_mono
  exact hasNode_addNode_self _ _ _

theorem addRecord_hasNode_dev {s : BuilderState α} {r : α} {devs : List α} {u : α}
    (hu : u ∈ devs) : (addRecord s r devs).graph.hasNode u = true :=
  foldl_addDev_hasNode_dev hu

theorem addRecord_hasNode_mono {s : BuilderState α} {y : α} (r : α) (devs : List α)
    (h : s.graph.hasNode y = true) : (addRecord s r devs).graph.hasNode y = true := by
  unfold addRecord
  exact foldl_addDev_hasNode_mono (hasNode_addNode_mono _ _ h)

theorem wmatch_iff {e : α × α × Nat} {u v : α} :
    wmatch e u v = true ↔ (e.1 = u ∧ e.2.1 = v) ∨ (e.1 = v ∧ e.2.1 = u) := by
  simp [wmatch]

theorem wmatch_comm (e : α × α × Nat) (u v : α) : wmatch e u v = wmatch e v u := by
  unfold wmatch
  rw [decide_eq_decide]
  tauto

theorem wmatch_fst (e : α × α × Nat) (x : Nat) (u v : α) :
    wmatch (e.1, e.2.1, x) u v = wmatch e u v := rfl

theorem any_wmatch_comm (l : List (α × α × Nat)) (u v : α) :
    l.any (fun e => wmatch e u v) = l.any (fun e => wmatch e v u) := by
  congr 1
  funext e
  exact wmatch_comm e u v

theorem wsum_cons (e : α × α × Nat) (l : List (α × α × Nat)) (u v : α) :
    wsum (e :: l) u v = (if wmatch e u v then e.2.2 else 0) + wsum l u v := by
  unfold wsum
  rw [List.filter_cons]
  split
  · rename_i h
    simp [h]
  · rename_i h
    simp only [Bool.not_eq_true] at h
    simp [h]

theorem wsum_append (l1 l2 : List (α × α × Nat)) (u v : α) :
    wsum (l1 ++ l2) u v = wsum l1 u v + wsum l2 u v := by
  unfold wsum
  simp [List.filter_append]

theorem wsum_bumpFirst (l : List (α × α × Nat)) (u v : α) :
    wsum (bumpFirst l u v) u v =
      wsum l u v + (if l.any (fun e => wmatch e u v) then 1 else 0) := by
  induction l with
  | nil => rfl
  | cons e es ih =>
    unfold bumpFirst
    split
    · rename_i h
      rw [wsum_cons, wsum_cons]
      have hm : wmatch (e.1, e.2.1, e.2.2 + 1) u v = true := by
        rw [wmatch_fst]
        exact h
      rw [List.any_cons]
      simp only [hm, h, if_true, Bool.true_or, ite_true]
      omega
    · rename_i h
      simp only [Bool.not_eq_true] at h
      rw [wsum_cons, wsum_cons, ih, List.any_cons]
      simp only [h, Bool.false_or, if_false, ite_false]
      omega

theorem wsum_bumpFirst_ne (l : List (α × α × Nat)) {u v a b : α}
    (hne : ¬((u = a ∧ v = b) ∨ (u = b ∧ v = a))) :
    wsum (bumpFirst l u v) a b = wsum l a b := by
  induction l with
  | nil => rfl
  | cons e es ih =>
    unfold bumpFirst
    split
    · rename_i h
      rw [wsum_cons, wsum_cons]
      have hf : wmatch e a b = false := by
        by_contra hc
        rw [Bool.not_eq_false] at hc
        rcases wmatch_iff.mp h with ⟨h1, h2⟩ | ⟨h1, h2⟩ <;>
          rcases wmatch_iff.mp hc with ⟨h3, h4⟩ | ⟨h3, h4⟩
        · exact hne (Or.inl ⟨h1 ▸ h3, h2 ▸ h4⟩)
        · exact hne (Or.inr ⟨h1 ▸ h3, h2 ▸ h4⟩)
        · exact hne (Or.inr ⟨h2 ▸ h4, h1 ▸ h3⟩)
        · exact hne (Or.inl ⟨h2 ▸ h4, h1 ▸ h3⟩)
      have hm : wmatch (e.1, e.2.1, e.2.2 + 1) a b = false := by
        rw [wmatch_fst]
        exact hf
      simp [hf, hm]
    · rw [wsum_cons, wsum_cons, ih]

theorem any_bumpFirst (l : List (α × α × Nat)) (u v a b : α) :
    (bumpFirst l u v).any (fun e => wmatch e a b) = l.any (fun e => wmatch e a b) := by
  induction l with
  | nil => rfl
  | cons e es ih =>
    unfold bumpFirst
    split
    · rw [List.any_cons, List.any_cons, wmatch_fst]
    · rw [List.any_cons, List.any_cons, ih]

theorem wt_comm (g : WGraph α) (u v : α) : g.wt u v = g.wt v u := by
  unfold WGraph.wt wsum
  have hf : g.edges.filter (fun e => wmatch e u v) =
      g.edges.filter (fun e => wmatch e v u) :=
    List.filter_congr (fun e _ => wmatch_comm e u v)
  rw [hf]

theorem hasWEdge_comm (g : WGraph α) (u v : α) : g.hasWEdge u v = g.hasWEdge v u := by
  unfold WGraph.hasWEdge
  exact any_wmatch_comm g.edges u v

theorem wt_incEdge_self (g : WGraph α) (u v : α) :
    (g.incEdge u v).wt u v = g.wt u v + 1 := by
  unfold WGraph.incEdge
  split
  · rename_i h
    show wsum (bumpFirst g.edges u v) u v = wsum g.edges u v + 1
    rw [wsum_bumpFirst]
    unfold WGraph.hasWEdge at h
    simp [h]
  · show wsum (g.edges ++ [(u, v, 1)]) u v = wsum g.edges u v + 1
    rw [wsum_append]
    have h1 : wsum [(u, v, 1)] u v = 1 := by
      rw [wsum_cons]
      simp [wmatch, wsum]
    rw [h1]

theorem wt_incEdge_ne (g : WGraph α) {u v a b : α}
    (hne : ¬((u = a ∧ v = b) ∨ (u = b ∧ v = a))) :
    (g.incEdge u v).wt a b = g.wt a b := by
  unfold WGraph.incEdge
  split
  · show wsum (bumpFirst g.edges u v) a b = wsum g.edges a b
    exact wsum_bumpFirst_ne g.edges hne
  · show wsum (g.edges ++ [(u, v, 1)]) a b = wsum g.edges a b
    rw [wsum_append]
    have h0 : wsum [(u, v, 1)] a b = 0 := by
      rw [wsum_cons]
      have hf : wmatch ((u, v, 1) : α × α × Nat) a b = false := by
        by_contra hc
        rw [Bool.not_eq_false] at hc
        rcases wmatch_iff.mp hc with ⟨h1, h2⟩ | ⟨h1, h2⟩
        · exact hne (Or.inl ⟨h1, h2⟩)
        · exact hne (Or.inr ⟨h1, h2⟩)
      simp [hf, wsum]
    rw [h0]
    omega

theorem hasWEdge_incEdge (g : WGraph α) (u v a b : α) :
    (g.incEdge u v).hasWEdge a b = true ↔
      g.hasWEdge a b = true ∨ (u = a ∧ v = b) ∨ (u = b ∧ v = a) := by
  unfold WGraph.incEdge
  split
  · rename_i h
    show (bumpFirst g.edges u v).any (fun e => wmatch e a b) = true ↔ _
    rw [any_bumpFirst]
    constructor
    · exact fun hh => Or.inl hh
    · rintro (hh | ⟨rfl, rfl⟩ | ⟨rfl, rfl⟩)
      · exact hh
      · exact h
      · show g.edges.any (fun e => wmatch e v u) = true
        rw [any_wmatch_comm]
        exact h
  · show (g.edges ++ [(u, v, 1)]).any (fun e => wmatch e a b) = true ↔ _
    simp only [List.any_append, List.any_cons, List.any_nil, Bool.or_false,
      Bool.or_eq_true, wmatch_iff]
    rfl

theorem incEdge_nodes_of_mem {g : WGraph α} {u v : α}
    (hu : u ∈ g.nodes) (hv : v ∈ g.nodes) : (g.incEdge u v).nodes = g.nodes := by
  unfold WGraph.incEdge
  split
  · rfl
  · show pinsert (pinsert g.nodes u) v = g.nodes
    rw [pinsert_of_mem (mem_pinsert_of_mem hv), pinsert_of_mem hu]

theorem bumpFirst_wpos {l : List (α × α × Nat)} {u v : α}
    (h : ∀ e ∈ l, 1 ≤ e.2.2) : ∀ e ∈ bumpFirst l u v, 1 ≤ e.2.2 := by
  induction l with
  | nil =>
    intro e he
    cases he
  | cons e es ih =>
    unfold bumpFirst
    split
    · intro f hf
      rcases List.mem_cons.mp hf with rfl | hf
      · simp
      · exact h f (List.mem_cons_of_mem _ hf)
    · intro f hf
      rcases List.mem_cons.mp hf with rfl | hf
      · exact h f (List.mem_cons_self _ _)
      · exact ih (fun e2 he2 => h e2 (List.mem_cons_of_mem _ he2)) f hf

theorem incEdge_wpos {g : WGraph α} {u v : α}
    (h : ∀ e ∈ g.edges, 1 ≤ e.2.2) : ∀ e ∈ (g.incEdge u v).edges, 1 ≤ e.2.2 := by
  unfold WGraph.incEdge
  split
  · exact bumpFirst_wpos h
  · intro e he
    rcases List.mem_append.mp he with he | he
    · exact h e he
    · rw [List.mem_singleton] at he
      rw [he]

theorem hasWEdge_iff_wt_pos {g : WGraph α} {u v : α}
    (h : ∀ e ∈ g.edges, 1 ≤ e.2.2) : g.hasWEdge u v = true ↔ 1 ≤ g.wt u v := by
  unfold WGraph.hasWEdge WGraph.wt wsum
  constructor
  · intro hh
    rw [List.any_eq_true] at hh
    obtain ⟨e, he, hm⟩ := hh
    have hef : e ∈ g.edges.filter (fun e => wmatch e u v) :=
      List.mem_filter.mpr ⟨he, hm⟩
    have hw : e.2.2 ∈ (g.edges.filter (fun e => wmatch e u v)).map (fun e => e.2.2) :=
      List.mem_map_of_mem _ hef
    exact le_trans (h e he) (List.single_le_sum (fun x _ => Nat.zero_le x) _ hw)
  · intro hh
    by_contra hc
    rw [Bool.not_eq_true] at hc
    rw [List.any_eq_false] at hc
    have hf : g.edges.filter (fun e => wmatch e u v) = [] := by
      rw [List.filter_eq_nil_iff]
      intro e he
      exact hc e he
    rw [hf] at hh
    simp at hh

theorem countP_ext {β : Type} {l : List β} {p q : β → Bool} (h : ∀ y ∈ l, p y = q y) :
    l.countP p = l.countP q := by
  induction l with
  | nil => rfl
  | cons z zs ih =>
    rw [List.countP_cons, List.countP_cons, h z (List.mem_cons_self _ _),
      ih (fun y hy => h y (List.mem_cons_of_mem _ hy))]

theorem mem_pairsUpper {β : Type} {l : List β} {p : β × β} (hp : p ∈ pairsUpper l) :
    p.1 ∈ l ∧ p.2 ∈ l := by
  induction l with
  | nil => cases hp
  | cons x xs ih =>
    unfold pairsUpper at hp
    rcases List.mem_append.mp hp with hp | hp
    · rw [List.mem_map] at hp
      obtain ⟨y, hy, rfl⟩ := hp
      exact ⟨List.mem_cons_self _ _, List.mem_cons_of_mem _ hy⟩
    · obtain ⟨h1, h2⟩ := ih hp
      exact ⟨List.mem_cons_of_mem _ h1, List.mem_cons_of_mem _ h2⟩

theorem pairsUpper_ne {β : Type} {l : List β} (hnd : l.Nodup) {p : β × β}
    (hp : p ∈ pairsUpper l) : p.1 ≠ p.2 := by
  induction l with
  | nil => cases hp
  | cons x xs ih =>
    unfold pairsUpper at hp
    rcases List.mem_append.mp hp with hp | hp
    · rw [List.mem_map] at hp
      obtain ⟨y, hy, rfl⟩ := hp
      intro he
      have he2 : x = y := he
      subst he2
      exact (List.nodup_cons.mp hnd).1 hy
    · exact ih (List.nodup_cons.mp hnd).2 hp

theorem countP_eq_mem {l : List α} (hnd : l.Nodup) (b : α) :
    l.countP (fun y => decide (y = b)) = if b ∈ l then 1 else 0 := by
  induction l with
  | nil => simp
  | cons z zs ih =>
    rw [List.countP_cons]
    rw [List.nodup_cons] at hnd
    by_cases hz : z = b
    · subst hz
      have h0 : zs.countP (fun y => decide (y = z)) = 0 := by
        rw [List.countP_eq_zero]
        intro a ha
        simp only [decide_eq_true_eq]
        intro he
        exact hnd.1 (he ▸ ha)
      simp [h0]
    · rw [ih hnd.2]
      simp [hz, List.mem_cons, Ne.symm hz]

theorem countP_pairsUpper_zero {l : List α} {a : α} (b : α) (ha : a ∉ l) :
    (pairsUpper l).countP
      (fun p => decide ((p.1 = a ∧ p.2 = b) ∨ (p.1 = b ∧ p.2 = a))) = 0 := by
  rw [List.countP_eq_zero]
  intro p hp
  have hm := mem_pairsUpper hp
  simp only [decide_eq_true_eq]
  rintro (⟨h1, h2⟩ | ⟨h1, h2⟩)
  · exact ha (h1 ▸ hm.1)
  · exact ha (h2 ▸ hm.2)

theorem countP_pairsUpper_zero_right {l : List α} (a : α) {b : α} (hb : b ∉ l) :
    (pairsUpper l).countP
      (fun p => decide ((p.1 = a ∧ p.2 = b) ∨ (p.1 = b ∧ p.2 = a))) = 0 := by
  rw [List.countP_eq_zero]
  intro p hp
  have hm := mem_pairsUpper hp
  simp only [decide_eq_true_eq]
  rintro (⟨h1, h2⟩ | ⟨h1, h2⟩)
  · exact hb (h2 ▸ hm.2)
  · exact hb (h1 ▸ hm.1)

theorem countP_pairsUpper {l : List α} (hnd : l.Nodup) {a b : α} (hab : a ≠ b) :
    (pairsUpper l).countP
      (fun p => decide ((p.1 = a ∧ p.2 = b) ∨ (p.1 = b ∧ p.2 = a))) =
      if a ∈ l ∧ b ∈ l then 1 else 0 := by
  induction l with
  | nil => simp [pairsUpper]
  | cons x xs ih =>
    rw [List.nodup_cons] at hnd
    unfold pairsUpper
    rw [List.countP_append]
    have hmap : (xs.map (fun y => (x, y))).countP
        (fun p => decide ((p.1 = a ∧ p.2 = b) ∨ (p.1 = b ∧ p.2 = a))) =
        xs.countP (fun y => decide ((x = a ∧ y = b) ∨ (x = b ∧ y = a))) := by
      rw [List.countP_map]
      rfl
    by_cases hxa : x = a
    · subst hxa
      have hxb : x ≠ b := hab
      have h1 : xs.countP (fun y => decide ((x = x ∧ y = b) ∨ (x = b ∧ y = x))) =
          xs.countP (fun y => decide (y = b)) := by
        apply countP_ext
        intro y _
        rw [decide_eq_decide]
        constructor
        · rintro (⟨-, h2⟩ | ⟨h1, -⟩)
          · exact h2
          · exact absurd h1 hxb
        · intro h2
          exact Or.inl ⟨rfl, h2⟩
      rw [hmap, h1, countP_eq_mem hnd.2 b, countP_pairsUpper_zero b hnd.1]
      simp [List.mem_cons, Ne.symm hxb]
    · by_cases hxb : x = b
      · subst hxb
        have h1 : xs.countP (fun y => decide ((x = a ∧ y = x) ∨ (x = x ∧ y = a))) =
            xs.countP (fun y => decide (y = a)) := by
          apply countP_ext
          intro y _
          rw [decide_eq_decide]
          constructor
          · rintro (⟨h1, -⟩ | ⟨-, h2⟩)
            · exact absurd h1 hxa
            · exact h2
          · intro h2
            exact Or.inr ⟨rfl, h2⟩
        rw [hmap, h1, countP_eq_mem hnd.2 a, countP_pairsUpper_zero_right a hnd.1]
        simp [List.mem_cons, Ne.symm hxa]
      · have h1 : xs.countP (fun y => decide ((x = a ∧ y = b) ∨ (x = b ∧ y = a))) = 0 := by
          rw [List.countP_eq_zero]
          intro y _
          simp only [decide_eq_true_eq]
          rintro (⟨h2, -⟩ | ⟨h2, -⟩)
          · exact hxa h2
          · exact hxb h2
        rw [hmap, h1, ih hnd.2]
        simp [List.mem_cons, Ne.symm hxa, Ne.symm hxb]

theorem wt_foldl_incEdge (ps : List (α × α)) (dg : WGraph α) (a b : α) :
    (ps.foldl (fun g p => g.incEdge p.1 p.2) dg).wt a b =
      dg.wt a b + ps.countP
        (fun p => decide ((p.1 = a ∧ p.2 = b) ∨ (p.1 = b ∧ p.2 = a))) := by
  induction ps generalizing dg with
  | nil => simp
  | cons p ps ih =>
    rw [List.foldl_cons, ih, List.countP_cons]
    by_cases hm : (p.1 = a ∧ p.2 = b) ∨ (p.1 = b ∧ p.2 = a)
    · have hw : (dg.incEdge p.1 p.2).wt a b = dg.wt a b + 1 := by
        rcases hm with ⟨h1, h2⟩ | ⟨h1, h2⟩
        · subst h1
          subst h2
          exact wt_incEdge_self dg _ _
        · subst h1
          subst h2
          calc (dg.incEdge p.1 p.2).wt p.2 p.1
              = (dg.incEdge p.1 p.2).wt p.1 p.2 := wt_comm _ _ _
            _ = dg.wt p.1 p.2 + 1 := wt_incEdge_self _ _ _
            _ = dg.wt p.2 p.1 + 1 := by rw [wt_comm]
      rw [hw]
      simp [hm]
      omega
    · rw [wt_incEdge_ne dg hm]
      simp [hm]

theorem nodes_foldl_incEdge (ps : List (α × α)) (dg : WGraph α)
    (h : ∀ p ∈ ps, p.1 ∈ dg.nodes ∧ p.2 ∈ dg.nodes) :
    (ps.foldl (fun g p => g.incEdge p.1 p.2) dg).nodes = dg.nodes := by
  induction ps generalizing dg with
  | nil => rfl
  | cons p ps ih =>
    rw [List.foldl_cons]
    have hp := h p (List.mem_cons_self _ _)
    have hn : (dg.incEdge p.1 p.2).nodes = dg.nodes := incEdge_nodes_of_mem hp.1 hp.2
    have h2 : ∀ q ∈ ps, q.1 ∈ (dg.incEdge p.1 p.2).nodes ∧
        q.2 ∈ (dg.incEdge p.1 p.2).nodes := by
      intro q hq
      rw [hn]
      exact h q (List.mem_cons_of_mem _ hq)
    rw [ih (dg.incEdge p.1 p.2) h2, hn]

theorem noloop_foldl_incEdge (ps : List (α × α)) (dg : WGraph α) (x : α)
    (hps : ∀ p ∈ ps, p.1 ≠ p.2) (h : dg.hasWEdge x x = false) :
    (ps.foldl (fun g p => g.incEdge p.1 p.2) dg).hasWEdge x x = false := by
  induction ps generalizing dg with
  | nil => exact h
  | cons p ps ih =>
    rw [List.foldl_cons]
    apply ih _ (fun q hq => hps q (List.mem_cons_of_mem _ hq))
    by_contra hc
    rw [Bool.not_eq_false] at hc
    rcases (hasWEdge_incEdge dg p.1 p.2 x x).mp hc with hh | ⟨h1, h2⟩ | ⟨h1, h2⟩
    · rw [h] at hh
      cases hh
    · exact hps p (List.mem_cons_self _ _) (h1.trans h2.symm)
    · exact hps p (List.mem_cons_self _ _) (h1.trans h2.symm)

theorem wpos_foldl_incEdge (ps : List (α × α)) (dg : WGraph α)
    (h : ∀ e ∈ dg.edges, 1 ≤ e.2.2) :
    ∀ e ∈ (ps.foldl (fun g p => g.incEdge p.1 p.2) dg).edges, 1 ≤ e.2.2 := by
  induction ps generalizing dg with
  | nil => exact h
  | cons p ps ih =>
    rw [List.foldl_cons]
    exact ih _ (incEdge_wpos h)

theorem nodes_foldl_WaddNode (devs : List α) (g : WGraph α) :
    (devs.foldl WGraph.addNode g).nodes = devs.foldl pinsert g.nodes := by
  induction devs generalizing g with
  | nil => rfl
  | cons d ds ih =>
    rw [List.foldl_cons, List.foldl_cons, ih]
    rfl

theorem edges_foldl_WaddNode (devs : List α) (g : WGraph α) :
    (devs.foldl WGraph.addNode g).edges = g.edges := by
  induction devs generalizing g with
  | nil => rfl
  | cons d ds ih =>
    rw [List.foldl_cons, ih]
    rfl

theorem get_developer_network_def (s : BuilderState α) :
    get_developer_network s =
      s.repos.foldl (fun dg r =>
        if s.graph.hasNode r then cliqueFold dg (s.graph.neighbors r) else dg)
        (s.developers.foldl WGraph.addNode ⟨[], []⟩) := rfl

theorem wt_repoFold (g : EGraph α) (repos : List α) (dg : WGraph α) {a b : α}
    (hab : a ≠ b) (hnd : ∀ r ∈ repos, (g.neighbors r).Nodup) :
    (repos.foldl (fun dg r =>
        if g.hasNode r then cliqueFold dg (g.neighbors r) else dg) dg).wt a b =
      dg.wt a b + repos.countP (fun r =>
        g.hasNode r && decide (a ∈ g.neighbors r) && decide (b ∈ g.neighbors r)) := by
  induction repos generalizing dg with
  | nil => simp
  | cons r rs ih =>
    rw [List.foldl_cons, List.countP_cons,
      ih _ (fun r2 h2 => hnd r2 (List.mem_cons_of_mem _ h2))]
    by_cases hr : g.hasNode r = true
    · rw [if_pos hr]
      unfold cliqueFold
      rw [wt_foldl_incEdge, countP_pairsUpper (hnd r (List.mem_cons_self _ _)) hab]
      by_cases ha : a ∈ g.neighbors r <;> by_cases hb : b ∈ g.neighbors r <;>
        (simp [hr, ha, hb]; try omega)
    · rw [if_neg hr]
      rw [Bool.not_eq_true] at hr
      simp [hr]

theorem nodes_repoFold (g : EGraph α) (repos : List α) (dg : WGraph α)
    (h : ∀ r ∈ repos, g.hasNode r = true → ∀ x ∈ g.neighbors r, x ∈ dg.nodes) :
    (repos.foldl (fun dg r =>
        if g.hasNode r then cliqueFold dg (g.neighbors r) else dg) dg).nodes =
      dg.nodes := by
  induction repos generalizing dg with
  | nil => rfl
  | cons r rs ih =>
    rw [List.foldl_cons]
    by_cases hr : g.hasNode r = true
    · rw [if_pos hr]
      have hcn : (cliqueFold dg (g.neighbors r)).nodes = dg.nodes := by
        unfold cliqueFold
        apply nodes_foldl_incEdge
        intro p hp
        have hm := mem_pairsUpper hp
        exact ⟨h r (List.mem_cons_self _ _) hr p.1 hm.1,
          h r (List.mem_cons_self _ _) hr p.2 hm.2⟩
      have h2 : ∀ r2 ∈ rs, g.hasNode r2 = true →
          ∀ x ∈ g.neighbors r2, x ∈ (cliqueFold dg (g.neighbors r)).nodes := by
        intro r2 hr2 hh x hx
        rw [hcn]
        exact h r2 (List.mem_cons_of_mem _ hr2) hh x hx
      rw [ih _ h2, hcn]
    · rw [if_neg hr]
      exact ih _ (fun r2 h2 => h r2 (List.mem_cons_of_mem _ h2))

theorem noloop_repoFold (g : EGraph α) (repos : List α) (dg : WGraph α) (x : α)
    (hnd : ∀ r ∈ repos, (g.neighbors r).Nodup) (h : dg.hasWEdge x x = false) :
    (repos.foldl (fun dg r =>
        if g.hasNode r then cliqueFold dg (g.neighbors r) else dg) dg).hasWEdge x x =
      false := by
  induction repos generalizing dg with
  | nil => exact h
  | cons r rs ih =>
    rw [List.foldl_cons]
    apply ih _ (fun r2 h2 => hnd r2 (List.mem_cons_of_mem _ h2))
    by_cases hr : g.hasNode r = true
    · rw [if_pos hr]
      unfold cliqueFold
      exact noloop_foldl_incEdge _ _ _
        (fun p hp => pairsUpper_ne (hnd r (List.mem_cons_self _ _)) hp) h
    · rw [if_neg hr]
      exact h

theorem wpos_repoFold (g : EGraph α) (repos : List α) (dg : WGraph α)
    (h : ∀ e ∈ dg.edges, 1 ≤ e.2.2) :
    ∀ e ∈ (repos.foldl (fun dg r =>
        if g.hasNode r then cliqueFold dg (g.neighbors r) else dg) dg).edges,
      1 ≤ e.2.2 := by
  induction repos generalizing dg with
  | nil => exact h
  | cons r rs ih =>
    rw [List.foldl_cons]
    apply ih
    by_cases hr : g.hasNode r = true
    · rw [if_pos hr]
      unfold cliqueFold
      exact wpos_foldl_incEdge _ _ h
    · rw [if_neg hr]
      exact h

theorem get_developer_network_wpos (s : BuilderState α) :
    ∀ e ∈ (get_developer_network s).edges, 1 ≤ e.2.2 := by
  rw [get_developer_network_def]
  apply wpos_repoFold
  rw [edges_foldl_WaddNode]
  intro e he
  cases he

theorem wt_get_developer_network (s : BuilderState α) {a b : α} (hab : a ≠ b)
    (hnd : ∀ r ∈ s.repos, (s.graph.neighbors r).Nodup) :
    (get_developer_network s).wt a b = coCount s a b := by
  rw [get_developer_network_def, wt_repoFold s.graph s.repos _ hab hnd]
  have h0 : (s.developers.foldl WGraph.addNode (⟨[], []⟩ : WGraph α)).wt a b = 0 := by
    unfold WGraph.wt
    rw [edges_foldl_WaddNode]
    rfl
  rw [h0, Nat.zero_add]
  rfl

theorem mem_nodes_get_developer_network (s : BuilderState α)
    (h : ∀ r ∈ s.repos, s.graph.hasNode r = true →
      ∀ x ∈ s.graph.neighbors r, x ∈ s.developers) :
    ∀ x, x ∈ (get_developer_network s).nodes ↔ x ∈ s.developers := by
  have hini : ∀ y, y ∈ (s.developers.foldl WGraph.addNode
      (⟨[], []⟩ : WGraph α)).nodes ↔ y ∈ s.developers := by
    intro y
    rw [nodes_foldl_WaddNode, mem_foldl_pinsert]
    simp
  intro x
  rw [get_developer_network_def,
    nodes_repoFold _ _ _ (fun r hr hh x2 hx2 => (hini x2).mpr (h r hr hh x2 hx2))]
  exact hini x

theorem noloop_get_developer_network (s : BuilderState α)
    (hnd : ∀ r ∈ s.repos, (s.graph.neighbors r).Nodup) (x : α) :
    (get_developer_network s).hasWEdge x x = false := by
  rw [get_developer_network_def]
  apply noloop_repoFold _ _ _ _ hnd
  unfold WGraph.hasWEdge
  rw [edges_foldl_WaddNode]
  rfl

theorem keys_addNode_present {g : EGraph α} {x : α} (t : String)
    (h : g.hasNode x = true) :
    (g.addNode x t).nodes.map Prod.fst = g.nodes.map Prod.fst := by
  rw [addNode_nodes_of_present t h, List.map_map]
  exact List.map_congr_left (fun p _ => wnode_fst x t p)

theorem keys_addNode_absent {g : EGraph α} {x : α} (t : String)
    (h : ¬ g.hasNode x = true) :
    (g.addNode x t).nodes.map Prod.fst = g.nodes.map Prod.fst ++ [x] := by
  unfold EGraph.addNode
  rw [if_neg h]
  simp

theorem keys_nodup_addNode {g : EGraph α} (x : α) (t : String)
    (h : (g.nodes.map Prod.fst).Nodup) :
    ((g.addNode x t).nodes.map Prod.fst).Nodup := by
  by_cases hx : g.hasNode x = true
  · rwa [keys_addNode_present t hx]
  · rw [keys_addNode_absent t hx]
    have hxk : x ∉ g.nodes.map Prod.fst := fun hc => hx (hasNode_iff_keys.mpr hc)
    simp [List.nodup_append, h, hxk]

theorem edges_addEdgeNW_of_has {g : EGraph α} {u v : α} (h : g.hasEdge u v = true) :
    (g.addEdgeNW u v).edges = g.edges := by
  unfold EGraph.addEdgeNW
  rw [if_pos h]

theorem edges_addEdgeNW_of_not {g : EGraph α} {u v : α} (h : g.hasEdge u v = false) :
    (g.addEdgeNW u v).edges = g.edges ++ [(u, v)] := by
  unfold EGraph.addEdgeNW
  rw [if_neg (by simp [h])]

theorem filterMapNbr_nodup (r : α) : ∀ l : List (α × α), l.Nodup →
    (∀ a b, (a, b) ∈ l → a ≠ b → (b, a) ∉ l) →
    (l.filterMap (fun e =>
      if e.1 = r then some e.2 else if e.2 = r then some e.1 else none)).Nodup := by
  intro l
  induction l with
  | nil =>
    intro _ _
    simp
  | cons e es ih =>
    intro hnd hnr
    obtain ⟨ea, eb⟩ := e
    rw [List.nodup_cons] at hnd
    have ihh := ih hnd.2 (fun a b hab hne hba =>
      hnr a b (List.mem_cons_of_mem _ hab) hne (List.mem_cons_of_mem _ hba))
    rw [List.filterMap_cons]
    split
    · exact ihh
    · rename_i x heq
      rw [List.nodup_cons]
      refine ⟨?_, ihh⟩
      intro hmem
      rw [List.mem_filterMap] at hmem
      obtain ⟨⟨fa, fb⟩, he2, hf2⟩ := hmem
      have hcase1 : (ea = r ∧ eb = x) ∨ (ea ≠ r ∧ eb = r ∧ ea = x) := by
        split at heq
        · rename_i h1
          exact Or.inl ⟨h1, Option.some.inj heq⟩
        · rename_i h1
          split at heq
          · rename_i h2
            exact Or.inr ⟨h1, h2, Option.some.inj heq⟩
          · cases heq
      have hcase2 : (fa = r ∧ fb = x) ∨ (fa ≠ r ∧ fb = r ∧ fa = x) := by
        split at hf2
        · rename_i h1
          exact Or.inl ⟨h1, Option.some.inj hf2⟩
        · rename_i h1
          split at hf2
          · rename_i h2
            exact Or.inr ⟨h1, h2, Option.some.inj hf2⟩
          · cases hf2
      rcases hcase1 with ⟨he1, he2x⟩ | ⟨hne1, he2r, he1x⟩ <;>
        rcases hcase2 with ⟨hf1, hf2x⟩ | ⟨hnf1, hf2r, hf1x⟩
      · apply hnd.1
        have hee : ((ea, eb) : α × α) = (fa, fb) := by
          rw [he1, he2x, hf1, hf2x]
        rw [hee]
        exact he2
      · have hxr : x ≠ r := hf1x ▸ hnf1
        have hmem1 : ((r, x) : α × α) ∈ (ea, eb) :: es := by
          rw [← he1, ← he2x]
          exact List.mem_cons_self _ _
        have hmem2 : ((x, r) : α × α) ∈ es := by
          rw [← hf1x, ← hf2r]
          exact he2
        exact hnr r x hmem1 (Ne.symm hxr) (List.mem_cons_of_mem _ hmem2)
      · have hxr : x ≠ r := he1x ▸ hne1
        have hmem1 : ((x, r) : α × α) ∈ (ea, eb) :: es := by
          rw [← he1x, ← he2r]
          exact List.mem_cons_self _ _
        have hmem2 : ((r, x) : α × α) ∈ es := by
          rw [← hf1, ← hf2x]
          exact he2
        exact hnr x r hmem1 hxr (List.mem_cons_of_mem _ hmem2)
      · apply hnd.1
        have hee : ((ea, eb) : α × α) = (fa, fb) := by
          rw [he2r, he1x, hf2r, hf1x]
        rw [hee]
        exact he2

theorem hasEdge_false_notmem {g : EGraph α} {u v : α} (h : g.hasEdge u v = false) :
    (u, v) ∉ g.edges ∧ (v, u) ∉ g.edges := by
  constructor
  · intro hc
    have ht := hasEdge_iff.mpr (Or.inl hc)
    rw [h] at ht
    cases ht
  · intro hc
    have ht := hasEdge_iff.mpr (Or.inr hc)
    rw [h] at ht
    cases ht

theorem neighbors_nodup_of_invS {s : BuilderState α} (h : InvS s) (r : α) :
    (s.graph.neighbors r).Nodup := by
  obtain ⟨-, -, h3, h4, -⟩ := h
  exact filterMapNbr_nodup r s.graph.edges h3 h4

theorem invS_addDev {t : BuilderState α} {r : α} (u : α)
    (hr : r ∈ t.repos) (h : InvS t) : InvS (addDev r t u) := by
  obtain ⟨h1, h2, h3, h4, h5, h6, h7, h8, h9⟩ := h
  refine ⟨h1, pinsert_nodup h2, ?_, ?_, ?_, ?_, ?_, ?_, ?_⟩
  · show (((t.graph.addNode u "developer").addEdgeNW u r).edges).Nodup
    by_cases hase : (t.graph.addNode u "developer").hasEdge u r = true
    · rw [edges_addEdgeNW_of_has hase, addNode_edges]
      exact h3
    · rw [Bool.not_eq_true] at hase
      rw [edges_addEdgeNW_of_not hase, addNode_edges]
      rw [hasEdge_addNode] at hase
      have hnm := hasEdge_false_notmem hase
      simp [List.nodup_append, h3, hnm.1]
  · show ∀ a b, (a, b) ∈ ((t.graph.addNode u "developer").addEdgeNW u r).edges → _
    intro a b hab hne hba
    rcases mem_edges_addEdgeNW.mp hab with hab2 | ⟨hf, habe⟩ <;>
      rcases mem_edges_addEdgeNW.mp hba with hba2 | ⟨hf2, hbae⟩
    · rw [addNode_edges] at hab2 hba2
      exact h4 a b hab2 hne hba2
    · rw [addNode_edges] at hab2
      rw [hasEdge_addNode] at hf2
      obtain ⟨rfl, rfl⟩ := Prod.mk.inj hbae
      exact (hasEdge_false_notmem hf2).2 hab2
    · rw [addNode_edges] at hba2
      rw [hasEdge_addNode] at hf
      obtain ⟨rfl, rfl⟩ := Prod.mk.inj habe
      exact (hasEdge_false_notmem hf).2 hba2
    · obtain ⟨rfl, rfl⟩ := Prod.mk.inj habe
      obtain ⟨h5a, -⟩ := Prod.mk.inj hbae
      exact hne h5a.symm
  · intro r2 hr2
    show ((t.graph.addNode u "developer").addEdgeNW u r).hasNode r2 = true
    rw [hasNode_addEdgeNW]
    exact hasNode_addNode_mono _ _ (h5 r2 hr2)
  · intro e he
    rcases mem_edges_addEdgeNW.mp he with he2 | ⟨-, rfl⟩
    · rw [addNode_edges] at he2
      exact ⟨mem_pinsert_of_mem (h6 e he2).1, (h6 e he2).2⟩
    · exact ⟨pinsert_self _ _, hr⟩
  · intro x hx
    show ((t.graph.addNode u "developer").addEdgeNW u r).hasNode x = true
    rw [hasNode_addEdgeNW]
    rcases mem_pinsert.mp hx with hx2 | rfl
    · exact hasNode_addNode_mono _ _ (h7 x hx2)
    · exact hasNode_addNode_self _ _ _
  · intro p hp
    dsimp only [addDev] at hp ⊢
    rw [addEdgeNW_nodes] at hp
    by_cases hpu : p.1 = u
    · have hpe := mem_nodes_addNode_key hp hpu
      subst hpe
      exact Or.inl ⟨pinsert_self _ _, rfl⟩
    · have hp2 := mem_nodes_addNode_of_ne hp hpu
      rcases h8 p hp2 with ⟨ha, hb⟩ | ⟨ha, hb⟩
      · exact Or.inl ⟨mem_pinsert_of_mem ha, hb⟩
      · exact Or.inr ⟨ha, hb⟩
  · show ((((t.graph.addNode u "developer").addEdgeNW u r).nodes).map Prod.fst).Nodup
    rw [addEdgeNW_nodes]
    exact keys_nodup_addNode _ _ h9

theorem invS_prep {s : BuilderState α} (r : α) (h : InvS s) :
    InvS ⟨s.graph.addNode r "repo", s.developers, pinsert s.repos r⟩ := by
  obtain ⟨h1, h2, h3, h4, h5, h6, h7, h8, h9⟩ := h
  refine ⟨pinsert_nodup h1, h2, ?_, ?_, ?_, ?_, ?_, ?_, ?_⟩
  · show ((s.graph.addNode r "repo").edges).Nodup
    rw [addNode_edges]
    exact h3
  · intro a b hab hne
    rw [addNode_edges] at hab ⊢
    exact h4 a b hab hne
  · intro r2 hr2
    rcases mem_pinsert.mp hr2 with hr2 | rfl
    · exact hasNode_addNode_mono _ _ (h5 r2 hr2)
    · exact hasNode_addNode_self _ _ _
  · intro e he
    rw [addNode_edges] at he
    exact ⟨(h6 e he).1, mem_pinsert_of_mem (h6 e he).2⟩
  · intro x hx
    exact hasNode_addNode_mono _ _ (h7 x hx)
  · intro p hp
    by_cases hpr : p.1 = r
    · have hpe := mem_nodes_addNode_key hp hpr
      subst hpe
      exact Or.inr ⟨pinsert_self _ _, rfl⟩
    · have hp2 := mem_nodes_addNode_of_ne hp hpr
      rcases h8 p hp2 with ⟨ha, hb⟩ | ⟨ha, hb⟩
      · exact Or.inl ⟨ha, hb⟩
      · exact Or.inr ⟨mem_pinsert_of_mem ha, hb⟩
  · exact keys_nodup_addNode _ _ h9

theorem invS_foldl_addDev {r : α} {devs : List α} {t : BuilderState α}
    (hr : r ∈ t.repos) (h : InvS t) : InvS (devs.foldl (addDev r) t) := by
  induction devs generalizing t with
  | nil => exact h
  | cons d ds ih =>
    rw [List.foldl_cons]
    exact ih (show r ∈ (addDev r t d).repos from hr) (invS_addDev d hr h)

theorem invS_addRecord {s : BuilderState α} (r : α) (devs : List α)
    (h : InvS s) : InvS (addRecord s r devs) := by
  unfold addRecord
  exact invS_foldl_addDev (pinsert_self _ _) (invS_prep r h)

theorem invS_init : InvS (initState : BuilderState α) := by
  unfold InvS initState
  simp

theorem reachable_invS {s : BuilderState α} (h : Reachable s) : InvS s := by
  induction h with
  | init => exact invS_init
  | step s2 r devs hs ih => exact invS_addRecord r devs ih

theorem neighbors_sub_developers {s : BuilderState α} (h : InvS s)
    (hdisj : ∀ x ∈ s.repos, x ∉ s.developers) {r : α} (hr : r ∈ s.repos) :
    ∀ x ∈ s.graph.neighbors r, x ∈ s.developers := by
  intro x hx
  rcases mem_neighbors.mp hx with he | he
  · exact absurd (h.2.2.2.2.2.1 (r, x) he).1 (hdisj r hr)
  · exact (h.2.2.2.2.2.1 (x, r) he).1

theorem nodeType_dev {s : BuilderState α} (hinv : InvS s)
    (hdisj : ∀ r ∈ s.repos, r ∉ s.developers) {x : α} (hx : x ∈ s.developers) :
    s.graph.nodeType x = some "developer" := by
  have hhn := hinv.2.2.2.2.2.2.1 x hx
  unfold EGraph.nodeType
  have hex : (s.graph.nodes.find? (fun p => decide (p.1 = x))).isSome := by
    rw [List.find?_isSome]
    obtain ⟨t, ht⟩ := hasNode_iff.mp hhn
    exact ⟨(x, t), ht, by simp⟩
  obtain ⟨p, hp⟩ := Option.isSome_iff_exists.mp hex
  rw [hp]
  have hpm := List.mem_of_find?_eq_some hp
  have hpx : p.1 = x := by
    have hfs := List.find?_some hp
    simpa using hfs
  rcases hinv.2.2.2.2.2.2.2.1 p hpm with ⟨-, hb⟩ | ⟨ha, -⟩
  · simp [hb]
  · rw [hpx] at ha
    exact absurd hx (hdisj x ha)

theorem nodeType_repo {s : BuilderState α} (hinv : InvS s)
    (hdisj : ∀ r ∈ s.repos, r ∉ s.developers) {x : α} (hx : x ∈ s.repos) :
    s.graph.nodeType x = some "repo" := by
  have hhn := hinv.2.2.2.2.1 x hx
  unfold EGraph.nodeType
  have hex : (s.graph.nodes.find? (fun p => decide (p.1 = x))).isSome := by
    rw [List.find?_isSome]
    obtain ⟨t, ht⟩ := hasNode_iff.mp hhn
    exact ⟨(x, t), ht, by simp⟩
  obtain ⟨p, hp⟩ := Option.isSome_iff_exists.mp hex
  rw [hp]
  have hpm := List.mem_of_find?_eq_some hp
  have hpx : p.1 = x := by
    have hfs := List.find?_some hp
    simpa using hfs
  rcases hinv.2.2.2.2.2.2.2.1 p hpm with ⟨ha, -⟩ | ⟨-, hb⟩
  · rw [hpx] at ha
    exact absurd ha (hdisj x hx)
  · simp [hb]

theorem countP_pair_le_one {l : List (α × α)} (hnd : l.Nodup)
    (hnr : ∀ a b, (a, b) ∈ l → a ≠ b → (b, a) ∉ l) (a b : α) :
    l.countP (fun e => decide ((e.1 = a ∧ e.2 = b) ∨ (e.1 = b ∧ e.2 = a))) ≤ 1 := by
  induction l with
  | nil => simp
  | cons e es ih =>
    rw [List.countP_cons]
    rw [List.nodup_cons] at hnd
    have ihh := ih hnd.2 (fun x y hxy hne hyx =>
      hnr x y (List.mem_cons_of_mem _ hxy) hne (List.mem_cons_of_mem _ hyx))
    by_cases hm : (e.1 = a ∧ e.2 = b) ∨ (e.1 = b ∧ e.2 = a)
    · have h0 : es.countP
          (fun e => decide ((e.1 = a ∧ e.2 = b) ∨ (e.1 = b ∧ e.2 = a))) = 0 := by
        rw [List.countP_eq_zero]
        intro f hf
        simp only [decide_eq_true_eq]
        rintro (⟨hf1, hf2⟩ | ⟨hf1, hf2⟩) <;> rcases hm with ⟨he1, he2⟩ | ⟨he1, he2⟩
        · have hfe : f = e := by
            have hfab : f = (a, b) := Prod.ext hf1 hf2
            have heab : e = (a, b) := Prod.ext he1 he2
            rw [hfab, heab]
          rw [hfe] at hf
          exact hnd.1 hf
        · by_cases hab : a = b
          · have hfe : f = e := by
              have hfab : f = (a, b) := Prod.ext hf1 hf2
              have heab : e = (b, a) := Prod.ext he1 he2
              rw [hfab, heab, hab]
            rw [hfe] at hf
            exact hnd.1 hf
          · have heq : e = (b, a) := Prod.ext he1 he2
            have hfq : f = (a, b) := Prod.ext hf1 hf2
            have heba : ((b, a) : α × α) ∈ e :: es := by
              rw [← heq]
              exact List.mem_cons_self _ _
            have hfab : ((a, b) : α × α) ∈ e :: es := by
              rw [← hfq]
              exact List.mem_cons_of_mem _ hf
            exact hnr b a heba (Ne.symm hab) hfab
        · by_cases hab : a = b
          · have hfe : f = e := by
              have hfab : f = (b, a) := Prod.ext hf1 hf2
              have heab : e = (a, b) := Prod.ext he1 he2
              rw [hfab, heab, hab]
            rw [hfe] at hf
            exact hnd.1 hf
          · have heq : e = (a, b) := Prod.ext he1 he2
            have hfq : f = (b, a) := Prod.ext hf1 hf2
            have heab : ((a, b) : α × α) ∈ e :: es := by
              rw [← heq]
              exact List.mem_cons_self _ _
            have hfba : ((b, a) : α × α) ∈ e :: es := by
              rw [← hfq]
              exact List.mem_cons_of_mem _ hf
            exact hnr a b heab hab hfba
        · have hfe : f = e := by
            have hfab : f = (b, a) := Prod.ext hf1 hf2
            have heab : e = (b, a) := Prod.ext he1 he2
            rw [hfab, heab]
          rw [hfe] at hf
          exact hnd.1 hf
      rw [h0]
      split <;> omega
    · have hdm : decide ((e.1 = a ∧ e.2 = b) ∨ (e.1 = b ∧ e.2 = a)) = false := by
        simp only [decide_eq_false_iff_not]
        exact hm
      rw [hdm]
      simp only [Bool.false_eq_true, if_false, Nat.add_zero]
      exact ihh

/-- Claim C8: for every projection computed by `get_developer_network` on
a builder state reachable by record processing, the stored weight and the
edge relation are symmetric in the two developers, and no developer has
an edge to itself. -/
theorem claim_C8 (s : BuilderState α) (h : Reachable s) :
    (∀ u v, (get_developer_network s).wt u v = (get_developer_network s).wt v u ∧
      (get_developer_network s).hasWEdge u v = (get_developer_network s).hasWEdge v u) ∧
    (∀ u, (get_developer_network s).hasWEdge u u = false) := by
  have hinv := reachable_invS h
  constructor
  · intro u v
    exact ⟨wt_comm _ u v, hasWEdge_comm _ u v⟩
  · intro u
    exact noloop_get_developer_network s (fun r _ => neighbors_nodup_of_invS hinv r) u

/-- Witness for C8 at the §8 example state. -/
theorem claim_C8_witness :
    (get_developer_network sexample).wt "a" "b" =
      (get_developer_network sexample).wt "b" "a" ∧
    (get_developer_network sexample).hasWEdge "a" "a" = false := by
  have hre : Reachable sexample := by
    unfold sexample
    exact Reachable.step _ "R2" ["b", "c", "d"]
      (Reachable.step _ "R1" ["a", "b", "c"] Reachable.init)
  have h := claim_C8 sexample hre
  exact ⟨(h.1 "a" "b").1, h.2 "a"⟩

/-- Claim C1, amended: on every reachable builder state in which no
tracked repository id is also a tracked developer id, the projection's
node set equals the tracked developer set, and for distinct u, v a
weighted edge exists iff at least one tracked repository has both in its
neighbor set, the weight being exactly the number of such repositories;
the §8 example projects to (a,b)=1, (a,c)=1, (b,c)=2, (b,d)=1, (c,d)=1
and no edge between a and d. -/
theorem claim_C1 (s : BuilderState α) (h : Reachable s)
    (hdisj : ∀ r ∈ s.repos, r ∉ s.developers) :
    ((∀ x, x ∈ (get_developer_network s).nodes ↔ x ∈ s.developers) ∧
     (∀ u v, u ≠ v →
        ((get_developer_network s).hasWEdge u v = true ↔ 1 ≤ coCount s u v) ∧
        (get_developer_network s).wt u v = coCount s u v)) ∧
    ((get_developer_network sexample).wt "a" "b" = 1 ∧
     (get_developer_network sexample).wt "a" "c" = 1 ∧
     (get_developer_network sexample).wt "b" "c" = 2 ∧
     (get_developer_network sexample).wt "b" "d" = 1 ∧
     (get_developer_network sexample).wt "c" "d" = 1 ∧
     (get_developer_network sexample).hasWEdge "a" "d" = false) := by
  have hinv := reachable_invS h
  have hnd : ∀ r ∈ s.repos, (s.graph.neighbors r).Nodup :=
    fun r _ => neighbors_nodup_of_invS hinv r
  refine ⟨⟨?_, ?_⟩, by decide⟩
  · exact mem_nodes_get_developer_network s
      (fun r hr _ x hx => neighbors_sub_developers hinv hdisj hr x hx)
  · intro u v huv
    have hwt := wt_get_developer_network s huv hnd
    refine ⟨?_, hwt⟩
    rw [hasWEdge_iff_wt_pos (get_developer_network_wpos s), hwt]

/-- Witness for C1 at the §8 example state. -/
theorem claim_C1_witness :
    (get_developer_network sexample).wt "b" "c" = coCount sexample "b" "c" ∧
    coCount sexample "b" "c" = 2 := by
  have hre : Reachable sexample := by
    unfold sexample
    exact Reachable.step _ "R2" ["b", "c", "d"]
      (Reachable.step _ "R1" ["a", "b", "c"] Reachable.init)
  have h := claim_C1 sexample hre (by decide)
  exact ⟨(h.1.2 "b" "c" (by decide)).2, by decide⟩

/-- Claim C1 fails as literally stated: in this loader-built state the
contributor id "a/b" of the second file collides with the repository id
inferred for the first file, so the projection's node set contains the
repository id "c/d", which is not a tracked developer. -/
theorem claim_C1_counterexample :
    Json.str "c/d" ∈ (get_developer_network overlapState).nodes ∧
    Json.str "c/d" ∉ overlapState.developers := by
  decide

/-- Claim C6, amended: after any sequence of processed records in which
no repository id is also a developer id, every edge of the bipartite
graph joins a node typed "developer" to a node typed "repo", its
endpoints differ, and every endpoint pair carries at most one edge. -/
theorem claim_C6 (s : BuilderState α) (h : Reachable s)
    (hdisj : ∀ r ∈ s.repos, r ∉ s.developers) :
    (∀ e ∈ s.graph.edges, s.graph.nodeType e.1 = some "developer" ∧
      s.graph.nodeType e.2 = some "repo" ∧ e.1 ≠ e.2) ∧
    (∀ a b, s.graph.edges.countP
      (fun e => decide ((e.1 = a ∧ e.2 = b) ∨ (e.1 = b ∧ e.2 = a))) ≤ 1) := by
  have hinv := reachable_invS h
  refine ⟨?_, fun a b => countP_pair_le_one hinv.2.2.1 hinv.2.2.2.1 a b⟩
  intro e he
  have h6 := hinv.2.2.2.2.2.1 e he
  refine ⟨nodeType_dev hinv hdisj h6.1, nodeType_repo hinv hdisj h6.2, ?_⟩
  intro hee
  exact hdisj e.2 h6.2 (hee ▸ h6.1)

/-- Witness for C6 at the §8 example state, on the edge (a, R1). -/
theorem claim_C6_witness :
    sexample.graph.nodeType "a" = some "developer" ∧
    sexample.graph.nodeType "R1" = some "repo" ∧ ("a" : String) ≠ "R1" := by
  have hre : Reachable sexample := by
    unfold sexample
    exact Reachable.step _ "R2" ["b", "c", "d"]
      (Reachable.step _ "R1" ["a", "b", "c"] Reachable.init)
  exact (claim_C6 sexample hre (by decide)).1 ("a", "R1") (by decide)

/-- Claim C6 fails as literally stated: a loader-built state in which a
file's contributor id equals its inferred repository id produces a
self-loop in the bipartite graph. -/
theorem claim_C6_counterexample :
    loopState.graph.hasEdge (Json.str "r/s") (Json.str "r/s") = true := by
  decide

/-- Claim C9: two files whose paths infer the same RepositoryId — for
example two unrelated paths that both fall back to the sentinel — attach
their contributor sets to one shared repository node whose neighbor set
is the union of both, so the projection links developers who never
co-occurred in any single file. -/
theorem claim_C9 :
    (inferRepoName ["data", "github"] = Except.ok "unknown/unknown" ∧
     inferRepoName ["cache", "gitee"] = Except.ok "unknown/unknown") ∧
    (∀ (R : String) (A B : List String),
      (addRecord (addRecord initState R A) R B).repos = [R] ∧
      (∀ x, x ∈ (addRecord (addRecord initState R A) R B).graph.neighbors R ↔
        x ∈ A ∨ x ∈ B) ∧
      (∀ a b, a ∈ A → a ∉ B → b ∈ B → b ∉ A →
        (get_developer_network
          (addRecord (addRecord initState R A) R B)).hasWEdge a b = true)) := by
  refine ⟨⟨by rfl, by rfl⟩, ?_⟩
  intro R A B
  have hrep : (addRecord (addRecord initState R A) R B).repos = [R] := by
    rw [addRecord_repos, addRecord_repos]
    show pinsert (pinsert (initState : BuilderState String).repos R) R = [R]
    have h1 : pinsert (initState : BuilderState String).repos R = [R] := by
      simp [initState, pinsert]
    rw [h1]
    exact pinsert_of_mem (by simp)
  have hnbr : ∀ x,
      x ∈ (addRecord (addRecord initState R A) R B).graph.neighbors R ↔
        x ∈ A ∨ x ∈ B := by
    intro x
    rw [mem_neighbors_addRecord, mem_neighbors_addRecord]
    have h0 : x ∈ (initState : BuilderState String).graph.neighbors R ↔ False := by
      simp [initState, EGraph.neighbors]
    rw [h0]
    tauto
  refine ⟨hrep, hnbr, ?_⟩
  intro a b haA haB hbB hbA
  have hre : Reachable (addRecord (addRecord initState R A) R B) :=
    Reachable.step _ R B (Reachable.step _ R A Reachable.init)
  have hinv := reachable_invS hre
  have hab : a ≠ b := fun he => haB (he ▸ hbB)
  have hwt := wt_get_developer_network (addRecord (addRecord initState R A) R B)
    hab (fun r _ => neighbors_nodup_of_invS hinv r)
  rw [hasWEdge_iff_wt_pos (get_developer_network_wpos _), hwt]
  unfold coCount
  rw [hrep]
  have h1 : (addRecord (addRecord initState R A) R B).graph.hasNode R = true :=
    hinv.2.2.2.2.1 R (by rw [hrep]; simp)
  have h2 : a ∈ (addRecord (addRecord initState R A) R B).graph.neighbors R :=
    (hnbr a).mpr (Or.inl haA)
  have h3 : b ∈ (addRecord (addRecord initState R A) R B).graph.neighbors R :=
    (hnbr b).mpr (Or.inr hbB)
  rw [List.countP_cons, List.countP_nil]
  simp [h1, h2, h3]

/-- Witness for C9: two records under the shared sentinel id connect
developers "a" and "b" who never appeared in one file together. -/
theorem claim_C9_witness :
    (get_developer_network (addRecord (addRecord initState "unknown/unknown"
      ["a", "x"]) "unknown/unknown" ["b", "x"])).hasWEdge "a" "b" = true :=
  (claim_C9.2 "unknown/unknown" ["a", "x"] ["b", "x"]).2.2 "a" "b"
    (by decide) (by decide) (by decide) (by decide)

theorem foldl_pinsert_absorb {devs l : List α} (h : ∀ u ∈ devs, u ∈ l) :
    devs.foldl pinsert l = l := by
  induction devs generalizing l with
  | nil => rfl
  | cons d ds ih =>
    rw [List.foldl_cons, pinsert_of_mem (h d (List.mem_cons_self _ _))]
    exact ih (fun u hu => h u (List.mem_cons_of_mem _ hu))

theorem hasEdge_congr {g1 g2 : EGraph α} (h : g1.edges = g2.edges) (u v : α) :
    g1.hasEdge u v = g2.hasEdge u v := by
  unfold EGraph.hasEdge
  rw [h]

theorem edges_foldl_addDev_absorb {r : α} {devs : List α} {t : BuilderState α}
    (h : ∀ u ∈ devs, t.graph.hasEdge u r = true) :
    (devs.foldl (addDev r) t).graph.edges = t.graph.edges := by
  induction devs generalizing t with
  | nil => rfl
  | cons d ds ih =>
    rw [List.foldl_cons]
    have he1 : (addDev r t d).graph.edges = t.graph.edges := by
      show ((t.graph.addNode d "developer").addEdgeNW d r).edges = _
      rw [edges_addEdgeNW_of_has (by
        rw [hasEdge_addNode]
        exact h d (List.mem_cons_self _ _)), addNode_edges]
    have h2 : ∀ u ∈ ds, (addDev r t d).graph.hasEdge u r = true := by
      intro u hu
      rw [hasEdge_congr he1]
      exact h u (List.mem_cons_of_mem _ hu)
    rw [ih h2, he1]

theorem addRecord_graph_edges_absorb {s2 : BuilderState α} {r : α} {devs : List α}
    (h : ∀ u ∈ devs, s2.graph.hasEdge u r = true) :
    (addRecord s2 r devs).graph.edges = s2.graph.edges := by
  unfold addRecord
  have hprep : ∀ u ∈ devs,
      (⟨s2.graph.addNode r "repo", s2.developers,
        pinsert s2.repos r⟩ : BuilderState α).graph.hasEdge u r = true := by
    intro u hu
    show (s2.graph.addNode r "repo").hasEdge u r = true
    rw [hasEdge_addNode]
    exact h u hu
  rw [edges_foldl_addDev_absorb hprep]
  exact addNode_edges _ _ _

theorem nodes_foldl_addDev_map {r : α} (devs : List α) (t : BuilderState α)
    (h : ∀ u ∈ devs, t.graph.hasNode u = true) :
    (devs.foldl (addDev r) t).graph.nodes =
      t.graph.nodes.map (fun p => devs.foldl (fun q u => wnode u "developer" q) p) := by
  induction devs generalizing t with
  | nil => simp
  | cons d ds ih =>
    rw [List.foldl_cons]
    have hn1 : (addDev r t d).graph.nodes =
        t.graph.nodes.map (wnode d "developer") := by
      show ((t.graph.addNode d "developer").addEdgeNW d r).nodes = _
      rw [addEdgeNW_nodes]
      exact addNode_nodes_of_present _ (h d (List.mem_cons_self _ _))
    have h2 : ∀ u ∈ ds, (addDev r t d).graph.hasNode u = true := by
      intro u hu
      show ((t.graph.addNode d "developer").addEdgeNW d r).hasNode u = true
      rw [hasNode_addEdgeNW]
      exact hasNode_addNode_mono _ _ (h u (List.mem_cons_of_mem _ hu))
    rw [ih _ h2, hn1, List.map_map]
    rfl

theorem foldl_wnode_dev (devs : List α) (p : α × String) :
    devs.foldl (fun q u => wnode u "developer" q) p =
      if p.1 ∈ devs then (p.1, "developer") else p := by
  induction devs generalizing p with
  | nil => simp
  | cons d ds ih =>
    rw [List.foldl_cons]
    show ds.foldl _ (wnode d "developer" p) = _
    rw [ih]
    unfold wnode
    by_cases hpd : p.1 = d
    · rw [if_pos hpd]
      simp [hpd, List.mem_cons]
    · rw [if_neg hpd]
      simp [hpd, List.mem_cons]

theorem nodes_foldl_addDev_entries {r : α} (devs : List α) (t : BuilderState α) :
    ∀ p ∈ (devs.foldl (addDev r) t).graph.nodes,
      (p.1 ∈ devs → p.2 = "developer") ∧ (p.1 ∉ devs → p ∈ t.graph.nodes) := by
  induction devs generalizing t with
  | nil =>
    intro p hp
    exact ⟨fun h => absurd h (List.not_mem_nil _), fun _ => hp⟩
  | cons d ds ih =>
    intro p hp
    rw [List.foldl_cons] at hp
    have hih := ih (addDev r t d) p hp
    have hnn : (addDev r t d).graph.nodes = (t.graph.addNode d "developer").nodes :=
      addEdgeNW_nodes _ _ _
    constructor
    · intro hpd
      rcases List.mem_cons.mp hpd with he | hds
      · by_cases hds2 : p.1 ∈ ds
        · exact hih.1 hds2
        · have hmem := hih.2 hds2
          rw [hnn] at hmem
          have hpe := mem_nodes_addNode_key hmem he
          rw [hpe]
      · exact hih.1 hds
    · intro hpd
      have hds2 : p.1 ∉ ds := fun hc => hpd (List.mem_cons_of_mem _ hc)
      have hpd2 : p.1 ≠ d := fun hc => hpd (by
        rw [hc]
        exact List.mem_cons_self _ _)
      have hmem := hih.2 hds2
      rw [hnn] at hmem
      exact mem_nodes_addNode_of_ne hmem hpd2

theorem addRecord_nodes_entries {s : BuilderState α} {r : α} {devs : List α} :
    ∀ p ∈ (addRecord s r devs).graph.nodes,
      (p.1 ∈ devs → p.2 = "developer") ∧ (p.1 ∉ devs → p.1 = r → p.2 = "repo") := by
  intro p hp
  unfold addRecord at hp
  have h := nodes_foldl_addDev_entries devs _ p hp
  refine ⟨h.1, ?_⟩
  intro hnd hpr
  have hmem := h.2 hnd
  have hpe := mem_nodes_addNode_key hmem hpr
  rw [hpe]

/-- Claim C7: adding the same membership record twice, from any prior
builder state, leaves exactly the state produced by adding it once — the
node list (with its type tags), edge list, and both tracked sets are
unchanged by the second addition. -/
theorem claim_C7 (s : BuilderState α) (r : α) (devs : List α) :
    addRecord (addRecord s r devs) r devs = addRecord s r devs := by
  set s1 := addRecord s r devs with hs1
  have hrepos : (addRecord s1 r devs).repos = s1.repos := by
    rw [addRecord_repos]
    apply pinsert_of_mem
    rw [hs1, addRecord_repos]
    exact pinsert_self _ _
  have hdevs : (addRecord s1 r devs).developers = s1.developers := by
    rw [addRecord_developers]
    apply foldl_pinsert_absorb
    intro u hu
    rw [hs1, addRecord_developers]
    exact mem_foldl_pinsert.mpr (Or.inr hu)
  have hedges : (addRecord s1 r devs).graph.edges = s1.graph.edges := by
    apply addRecord_graph_edges_absorb
    intro u hu
    rw [hs1]
    exact addRecord_hasEdge_iff.mpr (Or.inr hu)
  have hnodes : (addRecord s1 r devs).graph.nodes = s1.graph.nodes := by
    unfold addRecord
    have hpres : ∀ u ∈ devs,
        (⟨s1.graph.addNode r "repo", s1.developers,
          pinsert s1.repos r⟩ : BuilderState α).graph.hasNode u = true := by
      intro u hu
      show (s1.graph.addNode r "repo").hasNode u = true
      apply hasNode_addNode_mono
      rw [hs1]
      exact addRecord_hasNode_dev hu
    rw [nodes_foldl_addDev_map devs _ hpres]
    show (s1.graph.addNode r "repo").nodes.map _ = _
    have hr1 : s1.graph.hasNode r = true := by
      rw [hs1]
      exact addRecord_hasNode_repo _ _ _
    rw [addNode_nodes_of_present _ hr1, List.map_map]
    have hid : ∀ p ∈ s1.graph.nodes,
        ((fun p => devs.foldl (fun q u => wnode u "developer" q) p) ∘
          wnode r "repo") p = id p := by
      intro p hp
      have hp2 : p ∈ (addRecord s r devs).graph.nodes := by
        rw [hs1] at hp
        exact hp
      have hent := addRecord_nodes_entries p hp2
      show devs.foldl (fun q u => wnode u "developer" q) (wnode r "repo" p) = p
      rw [foldl_wnode_dev]
      unfold wnode
      by_cases hpr : p.1 = r
      · rw [if_pos hpr]
        by_cases hrd : r ∈ devs
        · rw [if_pos (show ((r, "repo") : α × String).1 ∈ devs from hrd)]
          have hdev : p.2 = "developer" := hent.1 (by rw [hpr]; exact hrd)
          exact (Prod.ext hpr hdev).symm
        · rw [if_neg (show ¬ ((r, "repo") : α × String).1 ∈ devs from hrd)]
          have hrepo : p.2 = "repo" := hent.2 (by rw [hpr]; exact hrd) hpr
          exact (Prod.ext hpr hrepo).symm
      · rw [if_neg hpr]
        by_cases hpd : p.1 ∈ devs
        · rw [if_pos hpd]
          have hdev : p.2 = "developer" := hent.1 hpd
          exact Prod.ext rfl hdev.symm
        · rw [if_neg hpd]
    rw [List.map_congr_left hid, List.map_id]
  have hgraph : (addRecord s1 r devs).graph = s1.graph := EGraph.ext hnodes hedges
  exact BuilderState.ext hgraph hdevs hrepos

theorem pyIdx_of_nonneg {len : Nat} {i : Int} (h : 0 ≤ i) : pyIdx len i = i :=
  if_neg (by omega)

theorem pyIdx_of_neg {len : Nat} {i : Int} (h : i < 0) :
    pyIdx len i = (len : Int) + i := if_pos h

theorem pyGet_nonneg (xs : List String) (i : Int) (h0 : 0 ≤ i)
    (h1 : i < (xs.length : Int)) : pyGet xs i = .ok (xs.getD i.toNat "") := by
  unfold pyGet
  rw [pyIdx_of_nonneg h0, if_pos ⟨h0, h1⟩]

theorem pyGet_neg (xs : List String) (i : Int) (hneg : i < 0)
    (h0 : 0 ≤ (xs.length : Int) + i) :
    pyGet xs i = .ok (xs.getD ((xs.length : Int) + i).toNat "") := by
  unfold pyGet
  rw [pyIdx_of_neg hneg, if_pos ⟨h0, by omega⟩]

theorem pyGet_neg_err (xs : List String) (i : Int) (hneg : i < 0)
    (h0 : (xs.length : Int) + i < 0) : pyGet xs i = .error () := by
  unfold pyGet
  rw [pyIdx_of_neg hneg, if_neg (by omega)]

theorem pyGet_ok_mem {xs : List String} {i : Int} {v : String}
    (h : pyGet xs i = .ok v) : v ∈ xs := by
  unfold pyGet at h
  split at h
  · rename_i hcond
    have hlt : (pyIdx xs.length i).toNat < xs.length := by omega
    rw [List.getD_eq_getElem _ _ hlt] at h
    have hv := Except.ok.inj h
    rw [← hv]
    exact List.getElem_mem hlt
  · exact Except.noConfusion h

/-- Claim C2, amended: the priority order github, gitee, developers,
final-two holds, except that a `github` (else `gitee`) segment without
two following segments yields the sentinel instead of falling through to
the later rules. -/
theorem claim_C2 (parts : List String) :
    ("github" ∈ parts → parts.indexOf "github" + 2 < parts.length →
      inferRepoName parts = .ok (parts.getD (parts.indexOf "github" + 1) "" ++ "/" ++
        parts.getD (parts.indexOf "github" + 2) "")) ∧
    ("github" ∈ parts → ¬ parts.indexOf "github" + 2 < parts.length →
      inferRepoName parts = .ok "unknown/unknown") ∧
    ("github" ∉ parts → "gitee" ∈ parts → parts.indexOf "gitee" + 2 < parts.length →
      inferRepoName parts = .ok (parts.getD (parts.indexOf "gitee" + 1) "" ++ "/" ++
        parts.getD (parts.indexOf "gitee" + 2) "")) ∧
    ("github" ∉ parts → "gitee" ∈ parts → ¬ parts.indexOf "gitee" + 2 < parts.length →
      inferRepoName parts = .ok "unknown/unknown") ∧
    ("github" ∉ parts → "gitee" ∉ parts → "developers" ∈ parts →
      2 ≤ parts.indexOf "developers" →
      inferRepoName parts = .ok (parts.getD (parts.indexOf "developers" - 2) "" ++ "/" ++
        parts.getD (parts.indexOf "developers" - 1) "")) ∧
    ("github" ∉ parts → "gitee" ∉ parts → "developers" ∉ parts → 2 ≤ parts.length →
      inferRepoName parts = .ok (parts.getD (parts.length - 2) "" ++ "/" ++
        parts.getD (parts.length - 1) "")) := by
  refine ⟨?_, ?_, ?_, ?_, ?_, ?_⟩
  · intro hg hlen
    unfold inferRepoName
    rw [if_pos hg, if_pos hlen]
    have hidx : parts.indexOf "github" < parts.length := List.indexOf_lt_length.mpr hg
    rw [pyGet_nonneg _ _ (by omega) (by omega),
      pyGet_nonneg _ _ (by omega) (by omega)]
    unfold joinSeg
    have h1 : ((parts.indexOf "github" : Int) + 1).toNat = parts.indexOf "github" + 1 := by
      omega
    have h2 : ((parts.indexOf "github" : Int) + 2).toNat = parts.indexOf "github" + 2 := by
      omega
    rw [h1, h2]
  · intro hg hlen
    unfold inferRepoName
    rw [if_pos hg, if_neg hlen]
  · intro hg hge hlen
    unfold inferRepoName
    rw [if_neg hg, if_pos hge, if_pos hlen]
    have hidx : parts.indexOf "gitee" < parts.length := List.indexOf_lt_length.mpr hge
    rw [pyGet_nonneg _ _ (by omega) (by omega),
      pyGet_nonneg _ _ (by omega) (by omega)]
    unfold joinSeg
    have h1 : ((parts.indexOf "gitee" : Int) + 1).toNat = parts.indexOf "gitee" + 1 := by
      omega
    have h2 : ((parts.indexOf "gitee" : Int) + 2).toNat = parts.indexOf "gitee" + 2 := by
      omega
    rw [h1, h2]
  · intro hg hge hlen
    unfold inferRepoName
    rw [if_neg hg, if_pos hge, if_neg hlen]
  · intro hg hge hdev h2le
    unfold inferRepoName
    rw [if_neg hg, if_neg hge, if_pos hdev]
    have hidx : parts.indexOf "developers" < parts.length :=
      List.indexOf_lt_length.mpr hdev
    rw [pyGet_nonneg _ _ (by omega) (by omega),
      pyGet_nonneg _ _ (by omega) (by omega)]
    unfold joinSeg
    have h1 : ((parts.indexOf "developers" : Int) - 2).toNat =
        parts.indexOf "developers" - 2 := by
      omega
    have h2 : ((parts.indexOf "developers" : Int) - 1).toNat =
        parts.indexOf "developers" - 1 := by
      omega
    rw [h1, h2]
  · intro hg hge hdev h2le
    unfold inferRepoName
    rw [if_neg hg, if_neg hge, if_neg hdev]
    rw [pyGet_neg _ _ (by omega) (by omega),
      pyGet_neg _ _ (by omega) (by omega)]
    unfold joinSeg
    have h1 : ((parts.length : Int) + -2).toNat = parts.length - 2 := by omega
    have h2 : ((parts.length : Int) + -1).toNat = parts.length - 1 := by omega
    rw [h1, h2]

/-- Witness for C2: a standard OpenDigger-style path. -/
theorem claim_C2_witness : inferRepoName ["data", "github", "o", "r"] = .ok "o/r" := by
  have h := (claim_C2 ["data", "github", "o", "r"]).1 (by decide) (by decide)
  exact h.trans (by rfl)

/-- Claim C2 fails as literally stated: with `github` present but not
followed by two segments, the code keeps the sentinel instead of falling
through to the final-two-segments rule, which would give "b/github". -/
theorem claim_C2_counterexample :
    inferRepoName ["a", "b", "github"] = .ok "unknown/unknown" ∧
    specInferRepoName ["a", "b", "github"] = .ok "b/github" ∧
    specInferRepoName ["a", "b", "github"] ≠ inferRepoName ["a", "b", "github"] := by
  refine ⟨by rfl, by rfl, ?_⟩
  intro h
  have h2 := (show specInferRepoName ["a", "b", "github"] =
    Except.ok "b/github" from rfl).symm.trans h
  have h3 := h2.trans (show inferRepoName ["a", "b", "github"] =
    Except.ok "unknown/unknown" from rfl)
  have h4 : ("b/github" : String) = "unknown/unknown" := Except.ok.inj h3
  exact absurd h4 (by decide)

theorem wfEntry_extract {x : Json} (h : wfEntryB x = true) :
    extractItem x = .ok (entryId x) ∧ pyHashable (entryId x) = true := by
  unfold wfEntryB at h
  split at h
  · exact ⟨rfl, rfl⟩
  · exact ⟨rfl, rfl⟩
  · exact Bool.noConfusion h

theorem entryStep_wf {acc : List Json} {x : Json} (h : wfEntryB x = true) :
    entryStep acc x = .ok (pinsert acc (entryId x)) := by
  unfold entryStep
  rw [(wfEntry_extract h).1]
  show setAdd acc (entryId x) = Except.ok (pinsert acc (entryId x))
  unfold setAdd
  rw [if_pos (wfEntry_extract h).2]

theorem foldStep_wf {xs : List Json} (acc : List Json)
    (h : ∀ x ∈ xs, wfEntryB x = true) :
    ∃ acc2, xs.foldlM entryStep acc = .ok acc2 ∧
      ∀ u, u ∈ acc2 ↔ u ∈ acc ∨ ∃ x ∈ xs, entryId x = u := by
  induction xs generalizing acc with
  | nil => exact ⟨acc, rfl, by simp⟩
  | cons x xs ih =>
    obtain ⟨acc2, hok, hmem⟩ := ih (pinsert acc (entryId x))
      (fun y hy => h y (List.mem_cons_of_mem _ hy))
    refine ⟨acc2, ?_, ?_⟩
    · rw [List.foldlM_cons, entryStep_wf (h x (List.mem_cons_self _ _))]
      exact hok
    · intro u
      rw [hmem u, mem_pinsert]
      constructor
      · rintro ((hu | hu) | ⟨y, hy, hyu⟩)
        · exact Or.inl hu
        · exact Or.inr ⟨x, List.mem_cons_self _ _, hu.symm⟩
        · exact Or.inr ⟨y, List.mem_cons_of_mem _ hy, hyu⟩
      · rintro (hu | ⟨y, hy, hyu⟩)
        · exact Or.inl (Or.inl hu)
        · rcases List.mem_cons.mp hy with rfl | hy2
          · exact Or.inl (Or.inr hyu.symm)
          · exact Or.inr ⟨y, hy2, hyu⟩

theorem collect_aux (kvs : List (String × Json)) (acc : List Json)
    (h : ∀ kv ∈ kvs, ∃ xs, kv.2 = Json.arr xs ∧ ∀ x ∈ xs, wfEntryB x = true) :
    ∃ cs, kvs.foldlM (fun acc kv => addPeriod acc kv.2) acc = .ok cs ∧
      ∀ u, u ∈ cs ↔ u ∈ acc ∨
        ∃ kv ∈ kvs, ∃ xs, kv.2 = Json.arr xs ∧ ∃ x ∈ xs, entryId x = u := by
  induction kvs generalizing acc with
  | nil => exact ⟨acc, rfl, by simp⟩
  | cons kv kvs ih =>
    obtain ⟨xs0, hxs0, hwf0⟩ := h kv (List.mem_cons_self _ _)
    obtain ⟨acc1, hok1, hmem1⟩ := foldStep_wf acc hwf0
    obtain ⟨cs, hok2, hmem2⟩ := ih acc1
      (fun kv2 hkv2 => h kv2 (List.mem_cons_of_mem _ hkv2))
    refine ⟨cs, ?_, ?_⟩
    · rw [List.foldlM_cons]
      have hap : addPeriod acc kv.2 = .ok acc1 := by
        rw [hxs0]
        show xs0.foldlM entryStep acc = _
        exact hok1
      rw [hap]
      exact hok2
    · intro u
      rw [hmem2 u, hmem1 u]
      constructor
      · rintro ((hu | ⟨x, hx, hxu⟩) | ⟨kv2, hkv2, xs2, hxs2, hex⟩)
        · exact Or.inl hu
        · exact Or.inr ⟨kv, List.mem_cons_self _ _, xs0, hxs0, x, hx, hxu⟩
        · exact Or.inr ⟨kv2, List.mem_cons_of_mem _ hkv2, xs2, hxs2, hex⟩
      · rintro (hu | ⟨kv2, hkv2, xs2, hxs2, x, hx, hxu⟩)
        · exact Or.inl (Or.inl hu)
        · rcases List.mem_cons.mp hkv2 with rfl | hkv3
          · have hxx : xs2 = xs0 := (Json.arr.inj (hxs0.symm.trans hxs2)).symm
            rw [hxx] at hx
            exact Or.inl (Or.inr ⟨x, hx, hxu⟩)
          · exact Or.inr ⟨kv2, hkv3, xs2, hxs2, x, hx, hxu⟩

theorem collectContribs_wf {kvs : List (String × Json)}
    (h : ∀ kv ∈ kvs, ∃ xs, kv.2 = Json.arr xs ∧ ∀ x ∈ xs, wfEntryB x = true) :
    ∃ cs, collectContribs kvs = .ok cs ∧
      ∀ u, u ∈ cs ↔ ∃ kv ∈ kvs, ∃ xs, kv.2 = Json.arr xs ∧ ∃ x ∈ xs, entryId x = u := by
  obtain ⟨cs, hok, hmem⟩ := collect_aux kvs [] h
  refine ⟨cs, hok, fun u => ?_⟩
  rw [hmem u]
  simp

theorem wfContent_obj {kvs : List (String × Json)}
    (h : wfContentB (Json.obj kvs) = true) :
    ∀ kv ∈ kvs, ∃ xs, kv.2 = Json.arr xs ∧ ∀ x ∈ xs, wfEntryB x = true := by
  intro kv hkv
  have h2 : (match kv.2 with
      | Json.arr xs => xs.all wfEntryB
      | _ => false) = true := by
    unfold wfContentB at h
    exact List.all_eq_true.mp h kv hkv
  cases hv : kv.2 with
  | arr xs =>
    have h3 : xs.all wfEntryB = true := by
      try rw [hv] at h2
      exact h2
    refine ⟨xs, ?_, fun x hx => List.all_eq_true.mp h3 x hx⟩
    first
      | exact hv
      | rfl
  | null =>
    have h3 : false = true := by
      try rw [hv] at h2
      exact h2
    exact Bool.noConfusion h3
  | jbool b =>
    have h3 : false = true := by
      try rw [hv] at h2
      exact h2
    exact Bool.noConfusion h3
  | num n =>
    have h3 : false = true := by
      try rw [hv] at h2
      exact h2
    exact Bool.noConfusion h3
  | str s2 =>
    have h3 : false = true := by
      try rw [hv] at h2
      exact h2
    exact Bool.noConfusion h3
  | obj kvs2 =>
    have h3 : false = true := by
      try rw [hv] at h2
      exact h2
    exact Bool.noConfusion h3

theorem foldlM_entryStep_ok {xs : List Json} {acc cs : List Json}
    (h : xs.foldlM entryStep acc = .ok cs) :
    ∀ x ∈ xs, ∃ u, extractItem x = .ok u := by
  induction xs generalizing acc with
  | nil =>
    intro x hx
    cases hx
  | cons y ys ih =>
    rw [List.foldlM_cons] at h
    cases hy : entryStep acc y with
    | error e =>
      rw [hy] at h
      exact Except.noConfusion h
    | ok acc1 =>
      rw [hy] at h
      intro x hx
      rcases List.mem_cons.mp hx with rfl | hx2
      · unfold entryStep at hy
        cases hext : extractItem x with
        | error e =>
          rw [hext] at hy
          exact Except.noConfusion hy
        | ok u => exact ⟨u, rfl⟩
      · have h2 : ys.foldlM entryStep acc1 = .ok cs := h
        exact ih h2 x hx2

theorem collect_ok_entries {kvs : List (String × Json)} {cs : List Json}
    (h : collectContribs kvs = .ok cs) :
    ∀ kv ∈ kvs, ∀ xs, kv.2 = Json.arr xs → ∀ x ∈ xs, ∃ u, extractItem x = .ok u := by
  suffices haux : ∀ (kvs2 : List (String × Json)) (acc cs2 : List Json),
      kvs2.foldlM (fun acc kv => addPeriod acc kv.2) acc = .ok cs2 →
      ∀ kv ∈ kvs2, ∀ xs, kv.2 = Json.arr xs →
        ∀ x ∈ xs, ∃ u, extractItem x = .ok u by
    exact haux kvs [] cs h
  intro kvs2
  induction kvs2 with
  | nil =>
    intro acc cs2 h2 kv hkv
    cases hkv
  | cons kv0 kvs2 ih =>
    intro acc cs2 h2 kv hkv
    rw [List.foldlM_cons] at h2
    cases hap : addPeriod acc kv0.2 with
    | error e =>
      rw [hap] at h2
      exact Except.noConfusion h2
    | ok acc1 =>
      rw [hap] at h2
      rcases List.mem_cons.mp hkv with rfl | hkv2
      · intro xs hxs x hx
        rw [hxs] at hap
        have hfold : xs.foldlM entryStep acc = .ok acc1 := hap
        exact foldlM_entryStep_ok hfold x hx
      · exact ih acc1 cs2 h2 kv hkv2

theorem collect_err_of_empty {kvs : List (String × Json)} {k : String}
    {xs : List Json} (hkv : (k, Json.arr xs) ∈ kvs) (hx : Json.arr [] ∈ xs) :
    collectContribs kvs = .error () := by
  cases hc : collectContribs kvs with
  | ok cs =>
    obtain ⟨u, hu⟩ := collect_ok_entries hc (k, Json.arr xs) hkv xs rfl (Json.arr []) hx
    rw [show extractItem (Json.arr []) = Except.error () from rfl] at hu
    exact Except.noConfusion hu
  | error e =>
    cases e
    rfl

theorem process_of_parse_err {s : BuilderState Json} {parts : List String}
    {c : Option Json} {e : Unit} (h : parseRecord parts c = .error e) :
    process_contributors_file s parts c = s := by
  unfold process_contributors_file
  rw [h]

theorem process_of_parse_ok {s : BuilderState Json} {parts : List String}
    {c : Option Json} {r : String} {cs : List Json}
    (h : parseRecord parts c = .ok (r, cs)) :
    process_contributors_file s parts c = addRecord s (Json.str r) cs := by
  unfold process_contributors_file
  rw [h]

theorem parseRecord_of_infer_err {parts : List String} {c : Option Json} {e : Unit}
    (h : inferRepoName parts = .error e) : parseRecord parts c = .error e := by
  unfold parseRecord
  rw [h]

theorem parseRecord_wf {parts : List String} {j : Json} {r : String}
    (hr : inferRepoName parts = .ok r) (hwf : wfContentB j = true) :
    ∃ cs, parseRecord parts (some j) = .ok (r, cs) := by
  cases j with
  | obj kvs =>
    obtain ⟨cs, hok, -⟩ := collectContribs_wf (wfContent_obj hwf)
    refine ⟨cs, ?_⟩
    unfold parseRecord
    rw [hr]
    show (match collectContribs kvs with
      | .error e => Except.error e
      | .ok cs => Except.ok (r, cs)) = Except.ok (r, cs)
    rw [hok]
  | null => exact Bool.noConfusion hwf
  | jbool b => exact Bool.noConfusion hwf
  | num n => exact Bool.noConfusion hwf
  | str s2 => exact Bool.noConfusion hwf
  | arr xs => exact Bool.noConfusion hwf

theorem addRecord_hasEdge_mono_any {s : BuilderState α} (r : α) (devs : List α)
    {a b : α} (h : s.graph.hasEdge a b = true) :
    (addRecord s r devs).graph.hasEdge a b = true := by
  unfold addRecord
  apply hasEdge_foldl_addDev_mono
  show (s.graph.addNode r "repo").hasEdge a b = true
  rwa [hasEdge_addNode]

theorem process_hasEdge_mono {s : BuilderState Json} {parts : List String}
    {c : Option Json} {a b : Json} (h : s.graph.hasEdge a b = true) :
    (process_contributors_file s parts c).graph.hasEdge a b = true := by
  unfold process_contributors_file
  cases hp : parseRecord parts c with
  | error e => exact h
  | ok rc =>
    obtain ⟨r, cs⟩ := rc
    exact addRecord_hasEdge_mono_any _ _ h

theorem load_data_hasEdge_mono {s : BuilderState Json}
    {files : List (List String × Option Json)} {a b : Json}
    (h : s.graph.hasEdge a b = true) :
    (load_data s files).graph.hasEdge a b = true := by
  induction files generalizing s with
  | nil => exact h
  | cons f fs ih =>
    show (load_data (process_contributors_file s f.1 f.2) fs).graph.hasEdge a b = true
    exact ih (process_hasEdge_mono h)

theorem load_data_filter (s : BuilderState Json)
    (files : List (List String × Option Json)) :
    load_data s files =
      load_data s (files.filter (fun f => (parseRecord f.1 f.2).isOk)) := by
  induction files generalizing s with
  | nil => rfl
  | cons f fs ih =>
    rw [List.filter_cons]
    cases hp : parseRecord f.1 f.2 with
    | ok rc =>
      rw [if_pos (show (Except.ok rc : Except Unit (String × List Json)).isOk = true
        from rfl)]
      show load_data (process_contributors_file s f.1 f.2) fs =
        load_data (process_contributors_file s f.1 f.2)
          (fs.filter (fun f => (parseRecord f.1 f.2).isOk))
      exact ih _
    | error e =>
      rw [if_neg (show ¬ (Except.error e : Except Unit (String × List Json)).isOk = true
        from fun hh => Bool.noConfusion hh)]
      show load_data (process_contributors_file s f.1 f.2) fs =
        load_data s (fs.filter (fun f => (parseRecord f.1 f.2).isOk))
      rw [process_of_parse_err hp]
      exact ih s

theorem load_data_record {files : List (List String × Option Json)}
    {r : String} {cs : List Json} :
    ∀ (s : BuilderState Json) (f : List String × Option Json), f ∈ files →
      parseRecord f.1 f.2 = Except.ok (r, cs) →
      ∀ u ∈ cs, (load_data s files).graph.hasEdge u (Json.str r) = true := by
  induction files with
  | nil =>
    intro s f hf
    cases hf
  | cons f0 fs ih =>
    intro s f hf hp u hu
    rcases List.mem_cons.mp hf with rfl | hf2
    · show (load_data (process_contributors_file s f.1 f.2) fs).graph.hasEdge u
        (Json.str r) = true
      apply load_data_hasEdge_mono
      rw [process_of_parse_ok hp]
      exact addRecord_hasEdge_iff.mpr (Or.inr hu)
    · show (load_data (process_contributors_file s f0.1 f0.2) fs).graph.hasEdge u
        (Json.str r) = true
      exact ih _ f hf2 hp u hu

/-- Claim C4: a file whose parsing fails leaves the builder state exactly
as it was; loading a mixed tree equals loading only its well-formed
files; and every well-formed file's record ends up in the graph (each of
its contributors has a membership edge to its repository node). -/
theorem claim_C4 :
    (∀ (s : BuilderState Json) (parts : List String) (c : Option Json) (e : Unit),
      parseRecord parts c = Except.error e → process_contributors_file s parts c = s) ∧
    (∀ (s : BuilderState Json) (files : List (List String × Option Json)),
      load_data s files =
        load_data s (files.filter (fun f => (parseRecord f.1 f.2).isOk))) ∧
    (∀ (s : BuilderState Json) (files : List (List String × Option Json)),
      ∀ f ∈ files, ∀ (r : String) (cs : List Json),
        parseRecord f.1 f.2 = Except.ok (r, cs) →
        ∀ u ∈ cs, (load_data s files).graph.hasEdge u (Json.str r) = true) := by
  refine ⟨?_, ?_, ?_⟩
  · intro s parts c e h
    exact process_of_parse_err h
  · intro s files
    exact load_data_filter s files
  · intro s files f hf r cs hp u hu
    exact load_data_record s f hf hp u hu

/-- Witness for C4: one well-formed and one unreadable file. -/
theorem claim_C4_witness :
    load_data initState
      [(["github", "o", "r"], some (Json.obj [("2015", Json.arr [Json.str "a"])])),
       (["github", "x", "y"], none)] =
      load_data initState
        ([(["github", "o", "r"], some (Json.obj [("2015", Json.arr [Json.str "a"])])),
          (["github", "x", "y"], none)].filter
          (fun f => (parseRecord f.1 f.2).isOk)) ∧
    (load_data initState
      [(["github", "o", "r"], some (Json.obj [("2015", Json.arr [Json.str "a"])])),
       (["github", "x", "y"], none)]).graph.hasEdge (Json.str "a")
        (Json.str "o/r") = true := by
  constructor
  · exact claim_C4.2.1 initState
      [(["github", "o", "r"], some (Json.obj [("2015", Json.arr [Json.str "a"])])),
       (["github", "x", "y"], none)]
  · exact claim_C4.2.2 initState
      [(["github", "o", "r"], some (Json.obj [("2015", Json.arr [Json.str "a"])])),
       (["github", "x", "y"], none)]
      (["github", "o", "r"], some (Json.obj [("2015", Json.arr [Json.str "a"])]))
      (by decide) "o/r" [Json.str "a"] (by rfl) (Json.str "a") (by decide)

/-- Claim C5: on well-formed content the collected contributor set
contains exactly the ids denoted by the entries of all periods (so the
result is independent of period order); a pair entry and a bare string
entry denote the same id, and the two-period example collects {a, b, c}. -/
theorem claim_C5 (kvs : List (String × Json))
    (h : ∀ kv ∈ kvs, ∃ xs, kv.2 = Json.arr xs ∧ ∀ x ∈ xs, wfEntryB x = true) :
    (∃ cs, collectContribs kvs = .ok cs ∧
      ∀ u, u ∈ cs ↔
        ∃ kv ∈ kvs, ∃ xs, kv.2 = Json.arr xs ∧ ∃ x ∈ xs, entryId x = u) ∧
    extractItem (Json.arr [Json.str "a", Json.num 10]) = Except.ok (Json.str "a") ∧
    extractItem (Json.str "a") = Except.ok (Json.str "a") ∧
    collectContribs [("2015", Json.arr [Json.str "a", Json.str "b"]),
      ("2016", Json.arr [Json.str "b", Json.str "c"])] =
      Except.ok [Json.str "a", Json.str "b", Json.str "c"] :=
  ⟨collectContribs_wf h, rfl, rfl, rfl⟩

/-- Witness for C5 at the two-period example. -/
theorem claim_C5_witness :
    Json.str "c" ∈ [Json.str "a", Json.str "b", Json.str "c"] := by
  obtain ⟨cs, hok, hmem⟩ := (claim_C5
    [("2015", Json.arr [Json.str "a", Json.str "b"]),
     ("2016", Json.arr [Json.str "b", Json.str "c"])] (by
      intro kv hkv
      rcases List.mem_cons.mp hkv with rfl | hkv2
      · exact ⟨[Json.str "a", Json.str "b"], rfl, by decide⟩
      · rcases List.mem_cons.mp hkv2 with rfl | hkv3
        · exact ⟨[Json.str "b", Json.str "c"], rfl, by decide⟩
        · cases hkv3)).1
  have hcs : cs = [Json.str "a", Json.str "b", Json.str "c"] := by
    have h2 : (Except.ok cs : Except Unit (List Json)) =
        Except.ok [Json.str "a", Json.str "b", Json.str "c"] := by
      rw [← hok]
      rfl
    exact Except.ok.inj h2
  rw [← hcs]
  exact (hmem (Json.str "c")).mpr
    ⟨("2016", Json.arr [Json.str "b", Json.str "c"]), by decide,
      [Json.str "b", Json.str "c"], rfl, Json.str "c", by decide, rfl⟩

/-- Claim C10: list-entry extraction takes the first element regardless
of length, a one-element list behaves like its bare element, and a file
containing an empty-list entry is skipped entirely, contributing no
record and leaving the builder state unchanged. -/
theorem claim_C10 :
    (∀ (x : Json) (rest : List Json),
      extractItem (Json.arr (x :: rest)) = Except.ok x) ∧
    extractItem (Json.arr [Json.str "a"]) = extractItem (Json.str "a") ∧
    (∀ (s : BuilderState Json) (parts : List String) (kvs : List (String × Json))
      (k : String) (xs : List Json), (k, Json.arr xs) ∈ kvs → Json.arr [] ∈ xs →
      collectContribs kvs = Except.error () ∧
      process_contributors_file s parts (some (Json.obj kvs)) = s) := by
  refine ⟨fun x rest => rfl, rfl, ?_⟩
  intro s parts kvs k xs hkv hx
  have hc := collect_err_of_empty hkv hx
  refine ⟨hc, ?_⟩
  cases hr : inferRepoName parts with
  | error e => exact process_of_parse_err (parseRecord_of_infer_err hr)
  | ok r =>
    apply process_of_parse_err
    unfold parseRecord
    rw [hr]
    show (match collectContribs kvs with
      | .error e => Except.error e
      | .ok cs => Except.ok (r, cs)) = Except.error ()
    rw [hc]

/-- Witness for C10: a file with entries ["a"] and [] is dropped whole. -/
theorem claim_C10_witness :
    collectContribs [("2015", Json.arr [Json.str "a", Json.arr []])] =
      Except.error () ∧
    process_contributors_file initState ["github", "o", "r"]
      (some (Json.obj [("2015", Json.arr [Json.str "a", Json.arr []])])) =
      initState :=
  claim_C10.2.2 initState ["github", "o", "r"]
    [("2015", Json.arr [Json.str "a", Json.arr []])] "2015"
    [Json.str "a", Json.arr []] (by decide) (by decide)

theorem sep_unique {c : Char} : ∀ {l1 : List Char} {m1 l2 m2 : List Char},
    c ∉ l1 → c ∉ m1 → l1 ++ c :: l2 = m1 ++ c :: m2 → l1 = m1 ∧ l2 = m2 := by
  intro l1
  induction l1 with
  | nil =>
    intro m1 l2 m2 h1 h2 he
    cases m1 with
    | nil =>
      simp only [List.nil_append] at he
      exact ⟨rfl, (List.cons.inj he).2⟩
    | cons y ys =>
      obtain ⟨hc, -⟩ := List.cons.inj he
      exact absurd (show c ∈ y :: ys by
        rw [hc]
        exact List.mem_cons_self _ _) h2
  | cons x xs ih =>
    intro m1 l2 m2 h1 h2 he
    cases m1 with
    | nil =>
      obtain ⟨hc, -⟩ := List.cons.inj he
      exact absurd (show c ∈ x :: xs by
        rw [← hc]
        exact List.mem_cons_self _ _) h1
    | cons y ys =>
      obtain ⟨hxy, htl⟩ := List.cons.inj he
      have hx : c ∉ xs := fun hcc => h1 (List.mem_cons_of_mem _ hcc)
      have hy : c ∉ ys := fun hcc => h2 (List.mem_cons_of_mem _ hcc)
      obtain ⟨ha, hb⟩ := ih hx hy htl
      exact ⟨by rw [hxy, ha], hb⟩

theorem slash_join {a b : String} (ha : '/' ∉ a.data)
    (he : a ++ "/" ++ b = "unknown/unknown") : a = "unknown" ∧ b = "unknown" := by
  have h1 := congrArg String.data he
  rw [String.data_append, String.data_append] at h1
  have h2 : a.data ++ '/' :: b.data = "unknown".data ++ '/' :: "unknown".data := by
    rw [show ("/" : String).data = ['/'] from rfl] at h1
    rw [show ("unknown/unknown" : String).data =
      "unknown".data ++ '/' :: "unknown".data from rfl] at h1
    simpa [List.append_assoc] using h1
  obtain ⟨h3, h4⟩ := sep_unique ha (by decide) h2
  exact ⟨congrArg String.mk h3, congrArg String.mk h4⟩

theorem joinSeg_ok {x y : Except Unit String} {v : String}
    (h : joinSeg x y = .ok v) :
    ∃ a b, x = .ok a ∧ y = .ok b ∧ v = a ++ "/" ++ b := by
  unfold joinSeg at h
  cases x with
  | error e => exact Except.noConfusion h
  | ok a =>
    cases y with
    | error e => exact Except.noConfusion h
    | ok b => exact ⟨a, b, rfl, rfl, (Except.ok.inj h).symm⟩

theorem inferRepoName_sentinel {parts : List String}
    (hseg : ∀ seg ∈ parts, '/' ∉ seg.data ∧ seg ≠ "unknown") :
    inferRepoName parts = .ok "unknown/unknown" ↔ sentinelCond parts := by
  constructor
  · intro h
    unfold inferRepoName at h
    by_cases hg : "github" ∈ parts
    · rw [if_pos hg] at h
      by_cases hlen : parts.indexOf "github" + 2 < parts.length
      · rw [if_pos hlen] at h
        exfalso
        obtain ⟨a, b, hxa, hxb, hv⟩ := joinSeg_ok h
        have hma := pyGet_ok_mem hxa
        have hj := slash_join (hseg a hma).1 hv.symm
        exact (hseg a hma).2 hj.1
      · rw [if_neg hlen] at h
        exact Or.inl ⟨hg, hlen⟩
    · rw [if_neg hg] at h
      by_cases hge : "gitee" ∈ parts
      · rw [if_pos hge] at h
        by_cases hlen : parts.indexOf "gitee" + 2 < parts.length
        · rw [if_pos hlen] at h
          exfalso
          obtain ⟨a, b, hxa, hxb, hv⟩ := joinSeg_ok h
          have hma := pyGet_ok_mem hxa
          have hj := slash_join (hseg a hma).1 hv.symm
          exact (hseg a hma).2 hj.1
        · rw [if_neg hlen] at h
          exact Or.inr ⟨hg, hge, hlen⟩
      · rw [if_neg hge] at h
        exfalso
        by_cases hdev : "developers" ∈ parts
        · rw [if_pos hdev] at h
          obtain ⟨a, b, hxa, hxb, hv⟩ := joinSeg_ok h
          have hma := pyGet_ok_mem hxa
          have hj := slash_join (hseg a hma).1 hv.symm
          exact (hseg a hma).2 hj.1
        · rw [if_neg hdev] at h
          obtain ⟨a, b, hxa, hxb, hv⟩ := joinSeg_ok h
          have hma := pyGet_ok_mem hxa
          have hj := slash_join (hseg a hma).1 hv.symm
          exact (hseg a hma).2 hj.1
  · intro h
    rcases h with ⟨hg, hlen⟩ | ⟨hg, hge, hlen⟩
    · unfold inferRepoName
      rw [if_pos hg, if_neg hlen]
    · unfold inferRepoName
      rw [if_neg hg, if_pos hge, if_neg hlen]

/-- Claim C3, amended: processing a well-formed recognized file never
crashes, but a MembershipRecord is produced exactly when path inference
does not raise internally: on an internal IndexError (e.g. a one-segment
path with no keyword) the file contributes nothing and the state is
unchanged, while on success the record is added; assuming no path
segment contains a slash or equals "unknown", the RepositoryId is the
sentinel "unknown/unknown" exactly when a github (else gitee) segment
is present without two segments following it. -/
theorem claim_C3 (s : BuilderState Json) (parts : List String) (j : Json)
    (hwf : wfContentB j = true) :
    ((∀ e, inferRepoName parts = Except.error e →
        process_contributors_file s parts (some j) = s) ∧
     (∀ r, inferRepoName parts = Except.ok r →
        ∃ cs, parseRecord parts (some j) = Except.ok (r, cs) ∧
          process_contributors_file s parts (some j) = addRecord s (Json.str r) cs)) ∧
    ((∀ seg ∈ parts, '/' ∉ seg.data ∧ seg ≠ "unknown") →
      (inferRepoName parts = Except.ok "unknown/unknown" ↔ sentinelCond parts)) := by
  refine ⟨⟨?_, ?_⟩, fun hseg => inferRepoName_sentinel hseg⟩
  · intro e he
    exact process_of_parse_err (parseRecord_of_infer_err he)
  · intro r hr
    obtain ⟨cs, hcs⟩ := parseRecord_wf hr hwf
    exact ⟨cs, hcs, process_of_parse_ok hcs⟩

/-- Witness for C3: a short path with a `github` segment yields the
sentinel record. -/
theorem claim_C3_witness :
    inferRepoName ["x", "github"] = Except.ok "unknown/unknown" ∧
    process_contributors_file initState ["x", "github"]
      (some (Json.obj [("2015", Json.arr [Json.str "a"])])) =
      addRecord initState (Json.str "unknown/unknown") [Json.str "a"] := by
  have h := claim_C3 initState ["x", "github"]
    (Json.obj [("2015", Json.arr [Json.str "a"])]) (by decide)
  constructor
  · exact (h.2 (by decide)).mpr (Or.inl ⟨by decide, by decide⟩)
  · obtain ⟨cs, hcs, hpr⟩ := h.1.2 "unknown/unknown" (by rfl)
    have hcseq : cs = [Json.str "a"] := by
      have h2 : (Except.ok ("unknown/unknown", cs) :
          Except Unit (String × List Json)) =
          Except.ok ("unknown/unknown", [Json.str "a"]) := by
        rw [← hcs]
        rfl
      exact congrArg Prod.snd (Except.ok.inj h2)
    rw [hcseq] at hpr
    exact hpr

/-- Claim C3 fails as stated: on the one-segment path ["x"] the fallback
rule's parts[-2] raises IndexError, the exception is caught, and no
MembershipRecord is produced at all — no sentinel record either. -/
theorem claim_C3_counterexample :
    parseRecord ["x"] (some (Json.obj [("2015", Json.arr [Json.str "a"])])) =
      Except.error () ∧
    process_contributors_file initState ["x"]
      (some (Json.obj [("2015", Json.arr [Json.str "a"])])) = initState ∧
    (initState : BuilderState Json).graph.nodes = [] :=
  ⟨by rfl, by rfl, rfl⟩
